import Mathlib

/-
Verification of the i18n layer of the `watilde/docs` repository.

The development shallowly embeds the TypeScript/JavaScript sources:

* `src/i18n/config.ts` — two revisions of the locale/path utilities
  (`getLocaleFromPathname`, `stripLocaleFromPathname`, `addLocaleToPathname`);
  the first revision is suffixed `1`, the second `2`.
* `src/contexts/I18nContext.tsx` — the translation lookup `t` (here `tLookup`)
  and the click interceptor with its re-entrancy flag (`handleClickCtx`).
* `src/hooks/useLocalizedNavigation.ts` — the hook interceptor (`handleClickHook`).
* `scripts/auto-translate-local.mjs` and `scripts/auto-translate.mjs` —
  `getKeys`, `getValue`, `setValue` and `translateMissingKeys` for both sync
  tools.

JavaScript strings are embedded as `List Char` (`Str`), so that `split`,
`replace`, `startsWith` and friends can be modelled character by character.
JSON documents are embedded as the mutual inductive `JValue`/`JFields`/`JElems`
(objects keep insertion order, like JS objects).  JavaScript dynamic features
are modelled where the scripts can reach them: property reads on strings
return indexed characters and `length` (method properties such as `charAt`
are not modelled), optional chaining returns `undefined` (`none`) on
`null`/`undefined`, and strict-mode `TypeError`s (assignment to a property of
a primitive) are modelled as `none`.  Assigning a non-index property to an
array is allowed at runtime but dropped by `JSON.stringify` when the tree is
written back, so the embedding of `setValue` returns the array unchanged in
that case (array `length` assignment is not modelled).
-/

abbrev Str := List Char

def chars (s : String) : Str := s.data

/-- JavaScript `s.split(c)` for a one-character separator: `""` splits to
`[""]`, and separators at the ends produce empty fragments. -/
def splitOnChar (c : Char) : Str → List Str
  | [] => [[]]
  | x :: xs =>
    if x = c then [] :: splitOnChar c xs
    else
      match splitOnChar c xs with
      | [] => [[x]]
      | y :: ys => (x :: y) :: ys

/-- JavaScript `s.replace(pat, repl)` with a plain-string pattern: only the
first occurrence is replaced; if there is none the string is unchanged. -/
def replaceFirst (pat repl : Str) (s : Str) : Str :=
  if pat.isPrefixOf s then repl ++ s.drop pat.length
  else
    match s with
    | [] => []
    | x :: xs => x :: replaceFirst pat repl xs

/-- JavaScript `pathname.replace(/\/$/, '')`: drop one trailing slash. -/
def dropTrailingSlash (s : Str) : Str :=
  if s.getLast? = some '/' then s.dropLast else s

/- `src/i18n/config.ts`: `locales = ['en', 'ja']`, `defaultLocale = 'en'`. -/

def locales : List Str := [chars "en", chars "ja"]

def defaultLocale : Str := chars "en"

/-- First revision of `getLocaleFromPathname`.  `segments[0]` is `undefined`
when the list is empty and `locales.includes(undefined)` is `false`; after
`filter(Boolean)` no segment is `""`, and `"" ∉ locales`, so `headD []` is a
faithful stand-in for the JS indexing. -/
def getLocaleFromPathname1 (pathname : Str) : Str :=
  let segments := (splitOnChar '/' pathname).filter (· ≠ [])
  let firstSegment := segments.headD []
  if firstSegment ∈ locales then firstSegment else defaultLocale

/-- First revision of `stripLocaleFromPathname`:
`pathname.replace('/' + locale, '') || '/'`. -/
def stripLocaleFromPathname1 (pathname : Str) : Str :=
  let locale := getLocaleFromPathname1 pathname
  if locale = defaultLocale then pathname
  else
    let r := replaceFirst ('/' :: locale) [] pathname
    if r = [] then ['/'] else r

/-- First revision of `addLocaleToPathname`. -/
def addLocaleToPathname1 (pathname locale : Str) : Str :=
  let cleanPath := stripLocaleFromPathname1 pathname
  if locale = defaultLocale then cleanPath
  else '/' :: (locale ++ cleanPath)

/-- Second revision of `getLocaleFromPathname`: drops one trailing slash and
requires a truthy (non-empty) first segment. -/
def getLocaleFromPathname2 (pathname : Str) : Str :=
  let cleanPath := dropTrailingSlash pathname
  let segments := (splitOnChar '/' cleanPath).filter (· ≠ [])
  let firstSegment := segments.headD []
  if firstSegment ≠ [] ∧ firstSegment ∈ locales then firstSegment
  else defaultLocale

/-- Second revision of `stripLocaleFromPathname`:
`cleanPath.replace(new RegExp('^/' + locale + '(/|$)'), '/') || '/'`;
the locale codes contain no regex metacharacters, so the regex matches
exactly `'/' + locale` at the start followed by `'/'` or the end, with the
whole match (including the following `'/'`) replaced by `'/'`. -/
def stripLocaleFromPathname2 (pathname : Str) : Str :=
  let cleanPath := dropTrailingSlash pathname
  let locale := getLocaleFromPathname2 cleanPath
  if locale = defaultLocale then pathname
  else
    let withoutLocale :=
      if cleanPath = '/' :: locale then ['/']
      else if ('/' :: (locale ++ ['/'])).isPrefixOf cleanPath then
        '/' :: cleanPath.drop (locale.length + 2)
      else cleanPath
    if withoutLocale = [] then ['/'] else withoutLocale

/-- Second revision of `addLocaleToPathname`. -/
def addLocaleToPathname2 (pathname locale : Str) : Str :=
  let cleanPath := stripLocaleFromPathname2 pathname
  if locale = defaultLocale then cleanPath
  else
    let normalizedPath :=
      if ['/'].isPrefixOf cleanPath then cleanPath else '/' :: cleanPath
    '/' :: (locale ++ (if normalizedPath = ['/'] then [] else normalizedPath))

/- Normalized paths (spec §3): a path begins with `/` and has no trailing
slash except the root, i.e. it is the root `"/"` or `/seg₁/…/segₙ` with each
segment non-empty and slash-free. -/

def ValidSeg (s : Str) : Prop := s ≠ [] ∧ '/' ∉ s

def ValidSegs (l : List Str) : Prop := ∀ s ∈ l, ValidSeg s

instance : DecidablePred ValidSeg := fun s => by unfold ValidSeg; infer_instance

instance (l : List Str) : Decidable (ValidSegs l) := by
  unfold ValidSegs; infer_instance

/-- `/seg₁/…/segₙ` for a non-empty segment list. -/
def render (l : List Str) : Str := (l.map (fun s => '/' :: s)).flatten

/-- The normalized path with the given segments (root for `[]`). -/
def pathOfSegs (l : List Str) : Str := if l = [] then ['/'] else render l

/-- Segment-level effect of both `stripLocaleFromPathname` revisions on a
normalized path: one leading non-default locale segment is removed. -/
def stripSegs (l : List Str) : List Str :=
  if l.headD [] = chars "ja" then l.tail else l

/-- The first non-empty `/`-separated segment of a path. -/
def firstSegment (p : Str) : Str :=
  ((splitOnChar '/' p).filter (· ≠ [])).headD []

/- Navigation interceptors. -/

inductive ClickOutcome where
  | allow
  | blocked
  | navigate (target : Str)
  deriving DecidableEq

/-- The external-link test of the `I18nContext.tsx` interceptor. -/
def isExternalHrefCtx (href : Str) : Bool :=
  (chars "http://").isPrefixOf href || (chars "https://").isPrefixOf href ||
  (chars "//").isPrefixOf href || (chars "#").isPrefixOf href ||
  (chars "mailto:").isPrefixOf href || (chars "tel:").isPrefixOf href

/-- `handleClick` of the `I18nContext.tsx` interceptor.  `href?` is `none`
when the click hits no anchor or the anchor has no `href` attribute.
`blocked` is `preventDefault()` with no navigation (the in-flight guard),
`allow` lets the default navigation run, `navigate target` is
`preventDefault()` followed by `router.push(target)` (which sets the
in-flight flag until the push settles). -/
def handleClickCtx (isNavigating : Bool) (locale : Str) (href? : Option Str) :
    ClickOutcome :=
  if isNavigating then .blocked
  else
    match href? with
    | none => .allow
    | some href =>
      if isExternalHrefCtx href then .allow
      else
        let hrefLocale := getLocaleFromPathname2 href
        if locale ≠ defaultLocale ∧ hrefLocale ≠ locale then
          .navigate (addLocaleToPathname2 (stripLocaleFromPathname2 href) locale)
        else .allow

/-- The external-link test of the `useLocalizedNavigation.ts` interceptor. -/
def isExternalHrefHook (href : Str) : Bool :=
  (chars "http").isPrefixOf href || (chars "//").isPrefixOf href ||
  (chars "#").isPrefixOf href

/-- `handleClick` of the `useLocalizedNavigation.ts` hook (no in-flight
guard; the current locale is read from `router.asPath`). -/
def handleClickHook (asPath : Str) (href? : Option Str) : ClickOutcome :=
  match href? with
  | none => .allow
  | some href =>
    if isExternalHrefHook href then .allow
    else
      let currentLocale := getLocaleFromPathname2 asPath
      let targetLocale := getLocaleFromPathname2 href
      if currentLocale ≠ chars "en" ∧ targetLocale = chars "en" ∧
          ¬ ('/' :: currentLocale).isPrefixOf href then
        .navigate (addLocaleToPathname2 href currentLocale)
      else .allow

/- Re-entrancy guard as a transition system.  `flag` is the `isNavigating`
state, `inflight` counts interceptor-initiated navigations that have not yet
settled.  `settle` is the `.finally` callback of `router.push` (success or
failure), which clears the flag.  State updates are modelled as taking
effect before the next event is processed. -/

structure NavState where
  flag : Bool
  inflight : Nat
  deriving DecidableEq

inductive NavEvent where
  | click (locale : Str) (href? : Option Str)
  | settle

def navStep (s : NavState) : NavEvent → NavState
  | .click locale href? =>
      match handleClickCtx s.flag locale href? with
      | .navigate _ => { flag := true, inflight := s.inflight + 1 }
      | _ => s
  | .settle => { flag := false, inflight := s.inflight - 1 }

inductive NavReachable : NavState → Prop where
  | init : NavReachable ⟨false, 0⟩
  | step {s : NavState} (e : NavEvent) :
      NavReachable s → NavReachable (navStep s e)

/- JSON documents, as produced by `JSON.parse`: objects keep key insertion
order.  The mutual shape keeps every recursion structural. -/

mutual
/-- A JavaScript value as the scripts see it.  An array carries its index
elements `es` and its own non-index string-keyed properties `ps`: JavaScript
arrays are ordinary extensible objects, so `arr[key] = v` with a non-index
key creates a readable own property (dropped only by `JSON.stringify`).
`JSON.parse` always yields arrays with `ps = .nil`. -/
inductive JValue where
  | str (s : Str)
  | num (n : Int)
  | bool (b : Bool)
  | null
  | obj (fs : JFields)
  | arr (es : JElems) (ps : JFields)
inductive JFields where
  | nil
  | cons (k : Str) (v : JValue) (rest : JFields)
inductive JElems where
  | nil
  | cons (v : JValue) (rest : JElems)
end

/-- First-occurrence association lookup (JS object keys are unique after
`JSON.parse`, but the operations are defined for any field list). -/
def JFields.get? : JFields → Str → Option JValue
  | .nil, _ => none
  | .cons k v rest, key => if k = key then some v else rest.get? key

/-- `o[key] = val` on an object: update the existing key in place, or append
a new key at the end (JS property insertion order). -/
def JFields.set : JFields → Str → JValue → JFields
  | .nil, key, val => .cons key val .nil
  | .cons k v rest, key, val =>
      if k = key then .cons k val rest else .cons k v (rest.set key val)

def JFields.hasKey : JFields → Str → Bool
  | .nil, _ => false
  | .cons k _ rest, key => k = key || rest.hasKey key

def JElems.length : JElems → Nat
  | .nil => 0
  | .cons _ rest => 1 + rest.length

def JElems.get? : JElems → Nat → Option JValue
  | .nil, _ => none
  | .cons v _, 0 => some v
  | .cons _ rest, i + 1 => rest.get? i

/-- `a[i] = val`: replace in range, extend with `null` holes beyond the end
(holes serialize as `null` under `JSON.stringify`). -/
def JElems.setPad : JElems → Nat → JValue → JElems
  | .nil, 0, val => .cons val .nil
  | .nil, i + 1, val => .cons .null (JElems.setPad .nil i val)
  | .cons _ rest, 0, val => .cons val rest
  | .cons v rest, i + 1, val => .cons v (rest.setPad i val)

/-- Canonical-decimal array/string index parse: JS treats `"0"`, `"12"` as
index properties but not `"00"`, `"1a"` or `""` (the 2^32 bound is not
modelled). -/
def strToNat? (s : Str) : Option Nat :=
  if s ≠ [] ∧ (∀ c ∈ s, '0' ≤ c ∧ c ≤ '9') ∧ (s = ['0'] ∨ s.headD ' ' ≠ '0')
  then some (s.foldl (fun a c => a * 10 + (c.toNat - 48)) 0)
  else none

/-- Canonical decimal rendering of a natural number (via a structural fuel
so that the definition reduces in the kernel). -/
def natToStrAux : Nat → Nat → Str
  | 0, n => [Char.ofNat (48 + n % 10)]
  | fuel + 1, n =>
      if n < 10 then [Char.ofNat (48 + n)]
      else natToStrAux fuel (n / 10) ++ [Char.ofNat (48 + n % 10)]

def natToStr (n : Nat) : Str := natToStrAux n n

/-- A property read `v[key]`, for the properties the scripts can observe:
object fields, array elements and `length`, string characters and `length`.
Prototype/method properties are not modelled.  Primitives own no modelled
properties (`null[key]` throws, which the call sites handle). -/
def jsGet (v : JValue) (key : Str) : Option JValue :=
  match v with
  | .obj fs => fs.get? key
  | .arr es ps =>
      match strToNat? key with
      | some i => es.get? i
      | none =>
          if key = chars "length" then some (.num es.length)
          else ps.get? key
  | .str s =>
      match strToNat? key with
      | some i => (s.get? i).map (fun c => JValue.str [c])
      | none => if key = chars "length" then some (.num s.length) else none
  | _ => none

/-- JavaScript truthiness of a value. -/
def truthy : JValue → Bool
  | .str s => !s.isEmpty
  | .num n => n != 0
  | .bool b => b
  | .null => false
  | .obj _ => true
  | .arr _ _ => true

/-- The walk of `getValue`: `keyPath.split('.').reduce((curr, key) =>
curr?.[key], obj)`.  Optional chaining sends `null`/`undefined` to
`undefined`; `jsGet` already returns `none` on `null`. -/
def getSegs : Option JValue → List Str → Option JValue
  | acc, [] => acc
  | acc, key :: rest =>
      getSegs (match acc with
               | some v => jsGet v key
               | none => none) rest

/-- `getValue(obj, keyPath)` of both sync scripts. -/
def getValue (t : JValue) (keyPath : Str) : Option JValue :=
  getSegs (some t) (splitOnChar '.' keyPath)

/-- The final assignment `target[lastKey] = value` of `setValue`.  `none` is
a thrown error: a strict-mode `TypeError` (assignment to a property of a
primitive, or a property read on `null`), or, for `arr.length = value`, the
`RangeError` thrown because the values the scripts assign there (translation
strings and fresh `{}` objects) are not valid array lengths (the coercing
success case for a canonical numeric string is not modelled).  A non-index
assignment on an array creates an ordinary own property. -/
def jsAssign (t : JValue) (key : Str) (val : JValue) : Option JValue :=
  match t with
  | .obj fs => some (.obj (fs.set key val))
  | .arr es ps =>
      match strToNat? key with
      | some i => some (.arr (es.setPad i val) ps)
      | none =>
          if key = chars "length" then none
          else some (.arr es (ps.set key val))
  | _ => none

/-- The walk of `setValue`: `keys.reduce((curr, key) => { if (!curr[key])
curr[key] = {}; return curr[key]; }, obj)` followed by the final assignment.
The recursion fuses the reduce and the final assignment; mutation is
modelled by rebuilding the spine.  On an array a non-index key walks or
creates an own property, exactly like an object field; walking `length`
either assigns `{}` to `length` (a `RangeError`, when the array is empty and
its length falsy) or descends into the length number, where the next step
throws — both are `none`.  On a truthy string property read the walk
descends into the indexed character (or `length`), where every later step
throws. -/
def setSegs (t : JValue) : List Str → JValue → Option JValue
  | [], _ => none
  | [key], val => jsAssign t key val
  | key :: rest, val =>
      match t with
      | .obj fs =>
          match fs.get? key with
          | some c =>
              if truthy c then
                (setSegs c rest val).map (fun c' => JValue.obj (fs.set key c'))
              else
                (setSegs (JValue.obj .nil) rest val).map
                  (fun c' => JValue.obj (fs.set key c'))
          | none =>
              (setSegs (JValue.obj .nil) rest val).map
                (fun c' => JValue.obj (fs.set key c'))
      | .arr es ps =>
          match strToNat? key with
          | some i =>
              match es.get? i with
              | some c =>
                  if truthy c then
                    (setSegs c rest val).map
                      (fun c' => JValue.arr (es.setPad i c') ps)
                  else
                    (setSegs (JValue.obj .nil) rest val).map
                      (fun c' => JValue.arr (es.setPad i c') ps)
              | none =>
                  (setSegs (JValue.obj .nil) rest val).map
                    (fun c' => JValue.arr (es.setPad i c') ps)
          | none =>
              if key = chars "length" then none
              else
                match ps.get? key with
                | some c =>
                    if truthy c then
                      (setSegs c rest val).map
                        (fun c' => JValue.arr es (ps.set key c'))
                    else
                      (setSegs (JValue.obj .nil) rest val).map
                        (fun c' => JValue.arr es (ps.set key c'))
                | none =>
                    (setSegs (JValue.obj .nil) rest val).map
                      (fun c' => JValue.arr es (ps.set key c'))
      | .str s =>
          match jsGet (JValue.str s) key with
          | some c => if truthy c then setSegs c rest val else none
          | none => none
      | _ => none

/-- `setValue(obj, keyPath, value)` of both sync scripts; `none` is an
uncaught-at-this-level `TypeError`. -/
def setValue (t : JValue) (keyPath : Str) (val : JValue) : Option JValue :=
  setSegs t (splitOnChar '.' keyPath) val

/- Translation lookup (`t` of `I18nContext.tsx`). -/

/-- The per-tree walk of `t`: step only while the value is a non-null
object (`value && typeof value === 'object'`); otherwise the walk has
failed and yields `undefined`. -/
def lookupWalk : Option JValue → List Str → Option JValue
  | acc, [] => acc
  | acc, key :: rest =>
      lookupWalk (match acc with
                  | some (JValue.obj fs) => jsGet (JValue.obj fs) key
                  | some (JValue.arr es ps) => jsGet (JValue.arr es ps) key
                  | _ => none) rest

def isStrResult : Option JValue → Bool
  | some (.str _) => true
  | _ => false

/-- `t(key)` of `I18nContext.tsx`: walk the active-locale tree; if the walk
does not end at a string, walk the default (fallback) tree; if that also
fails, return the key itself. -/
def tLookup (messages fallbackMessages : JValue) (key : Str) : Str :=
  let keys := splitOnChar '.' key
  match lookupWalk (some messages) keys with
  | some (.str s) => s
  | _ =>
      match lookupWalk (some fallbackMessages) keys with
      | some (.str s) => s
      | _ => key

/-- `t(key)` of the `part_006` I18nContext revision: walk the single
active-locale tree; a mid-walk failure returns the key immediately and a
final non-string value also returns the key — there is no fallback tier
(that revision loads only the active locale's file).  The early `return
key` of the source and the walk-to-`undefined`-then-`key` here yield the
same result. -/
def tLookupSingle (messages : JValue) (key : Str) : Str :=
  match lookupWalk (some messages) (splitOnChar '.' key) with
  | some (.str s) => s
  | _ => key

/- `getKeys` of the two sync scripts. -/

def joinKey (pfx k : Str) : Str := if pfx = [] then k else pfx ++ '.' :: k

/-- `Object.entries` of a string root: one single-character string per
index; both scripts then treat each character as a string leaf. -/
def stringEntryKeys (s : Str) (pfx : Str) : List Str :=
  (List.range s.length).map (fun i => joinKey pfx (natToStr i))

/-- `getKeys` of `auto-translate-local.mjs` over the fields of an object:
recurse into plain (non-array, non-null) objects, keep string leaves, drop
everything else (arrays, numbers, booleans, `null`). -/
def getKeysLocalF : JFields → Str → List Str
  | .nil, _ => []
  | .cons k v rest, pfx =>
      (match v with
       | JValue.obj fs' => getKeysLocalF fs' (joinKey pfx k)
       | JValue.str _ => [joinKey pfx k]
       | _ => []) ++ getKeysLocalF rest pfx

/-- `getKeys` of `auto-translate-local.mjs` over the entries of an array
value (reachable only when the parsed root itself is an array). -/
def getKeysLocalE : JElems → Nat → Str → List Str
  | .nil, _, _ => []
  | .cons v rest, i, pfx =>
      (match v with
       | JValue.obj fs' => getKeysLocalF fs' (joinKey pfx (natToStr i))
       | JValue.str _ => [joinKey pfx (natToStr i)]
       | _ => []) ++ getKeysLocalE rest (i + 1) pfx

/-- `Object.entries` on an array enumerates the index entries in ascending
order and then the own string-keyed properties in insertion order (the
latter exist only on in-memory arrays touched by a conflicting
insertion). -/
def getKeysLocal (t : JValue) (pfx : Str) : List Str :=
  match t with
  | .obj fs => getKeysLocalF fs pfx
  | .arr es ps => getKeysLocalE es 0 pfx ++ getKeysLocalF ps pfx
  | .str s => stringEntryKeys s pfx
  | _ => []

mutual
/-- `getKeys` of `auto-translate.mjs` over object fields: recurse into any
non-null object — arrays included — and push every other leaf (strings,
numbers, booleans, and `null`, for which `value !== null` fails the
object test). -/
def getKeysApiF : JFields → Str → List Str
  | .nil, _ => []
  | .cons k v rest, pfx =>
      (match v with
       | JValue.obj fs' => getKeysApiF fs' (joinKey pfx k)
       | JValue.arr es' ps' =>
           getKeysApiE es' 0 (joinKey pfx k) ++ getKeysApiF ps' (joinKey pfx k)
       | _ => [joinKey pfx k]) ++ getKeysApiF rest pfx
/-- `getKeys` of `auto-translate.mjs` over array entries (index keys). -/
def getKeysApiE : JElems → Nat → Str → List Str
  | .nil, _, _ => []
  | .cons v rest, i, pfx =>
      (match v with
       | JValue.obj fs' => getKeysApiF fs' (joinKey pfx (natToStr i))
       | JValue.arr es' ps' =>
           getKeysApiE es' 0 (joinKey pfx (natToStr i)) ++
             getKeysApiF ps' (joinKey pfx (natToStr i))
       | _ => [joinKey pfx (natToStr i)]) ++ getKeysApiE rest (i + 1) pfx
end

def getKeysApi (t : JValue) (pfx : Str) : List Str :=
  match t with
  | .obj fs => getKeysApiF fs pfx
  | .arr es ps => getKeysApiE es 0 pfx ++ getKeysApiF ps pfx
  | .str s => stringEntryKeys s pfx
  | _ => []

def joinSep (sep : Str) : List Str → Str
  | [] => []
  | [s] => s
  | s :: rest => s ++ sep ++ joinSep sep rest

def joinDot : List Str → Str := joinSep ['.']

/-- Modelled from the spec (§4.5 steps 1–2): the segment paths of the
default tree whose leaf values are strings, in flattening order; non-string
leaves (e.g. arrays) are excluded.  This definition follows the spec's
words and is compared against the scripts' `getKeys`. -/
def specStringPathsF : JFields → List (List Str)
  | .nil => []
  | .cons k v rest =>
      (match v with
       | JValue.str _ => [[k]]
       | JValue.obj fs' => (specStringPathsF fs').map (k :: ·)
       | _ => []) ++ specStringPathsF rest

/-- Modelled from the spec (§4.5 steps 1–2): dot-join the string-leaf paths
of the default tree and keep those whose lookup in the target tree is
undefined, in flattening order. -/
def specMissingKeys (dflt target : JValue) : List Str :=
  (match dflt with
   | .obj fs => (specStringPathsF fs).map joinDot
   | _ => []).filter (fun k => (getValue target k).isNone)

/-- The missing-key list of `auto-translate-local.mjs`:
`enKeys.filter((key) => getValue(jaTranslations, key) === undefined)`. -/
def missingKeysLocal (en ja : JValue) : List Str :=
  (getKeysLocal en []).filter (fun k => (getValue ja k).isNone)

/-- The missing-key list of `auto-translate.mjs` (same filter, over the API
variant of `getKeys`). -/
def missingKeysApi (en ja : JValue) : List Str :=
  (getKeysApi en []).filter (fun k => (getValue ja k).isNone)

/- The sync-tool main loops. -/

structure SyncState where
  tree : JValue
  translated : Nat
  errors : Nat

/-- One iteration of the `auto-translate-local.mjs` loop.  `tr` is the local
model: `none` is a per-key translation failure, in which case the `catch`
writes the untranslated English text as a placeholder.  Both the `try` and
the `catch` call `setValue` on the same path, so a `TypeError` there escapes
the loop either way (`none`). -/
def translateLocalStep (en : JValue) (tr : Str → Option Str) (st : SyncState)
    (key : Str) : Option SyncState :=
  match getValue en key with
  | some (JValue.str enText) =>
      match tr enText with
      | some jaText =>
          (setValue st.tree key (JValue.str jaText)).map
            (fun t' => ⟨t', st.translated + 1, st.errors⟩)
      | none =>
          (setValue st.tree key (JValue.str enText)).map
            (fun t' => ⟨t', st.translated, st.errors + 1⟩)
  | _ => some st

/-- `translateMissingKeys` of `auto-translate-local.mjs`.  The result pairs
the final state with the list of `writeFileSync` payloads; `none` is the
top-level `.catch` (non-zero exit before any write).  With no missing keys
the script reports and returns without writing. -/
def translateMissingKeysLocal (en ja : JValue) (tr : Str → Option Str) :
    Option (SyncState × List JValue) :=
  let missingKeys := missingKeysLocal en ja
  if missingKeys = [] then some (⟨ja, 0, 0⟩, [])
  else
    match missingKeys.foldlM (translateLocalStep en tr) ⟨ja, 0, 0⟩ with
    | some st => some (st, [st.tree])
    | none => none

structure ApiSyncState where
  tree : JValue
  translated : Nat
  errors : Nat
  attempted : List Str

/-- `context` passed to the Gemini call: the parent path segments of the key
joined by `' > '`. -/
def contextOfKey (key : Str) : Str :=
  joinSep (chars " > ") (splitOnChar '.' key).dropLast

/-- One iteration of the `auto-translate.mjs` loop with the
`gemini-flash` backend.  `translateWithGemini` throws before any network
activity when `GEMINI_API_KEY` is absent; every throw (credential, network,
or the `setValue` `TypeError`) is caught by the per-key `catch`, which only
counts the error.  `attempted` records the keys whose `try` block ran a
translation attempt.  The rate-limit delay has no modelled effect. -/
def translateApiStep (en : JValue) (apiKey : Option Str)
    (net : Str → Str → Option Str) (st : ApiSyncState) (key : Str) :
    ApiSyncState :=
  match getValue en key with
  | some (JValue.str enText) =>
      let st := { st with attempted := st.attempted ++ [key] }
      match apiKey with
      | none => { st with errors := st.errors + 1 }
      | some _ =>
          match net enText (contextOfKey key) with
          | none => { st with errors := st.errors + 1 }
          | some jaText =>
              match setValue st.tree key (JValue.str jaText) with
              | none => { st with errors := st.errors + 1 }
              | some t' => { st with tree := t', translated := st.translated + 1 }
  | _ => st

/-- `translateMissingKeys` of `auto-translate.mjs` with `--model
gemini-flash`; pairs the final state with the `writeFileSync` payloads. -/
def translateMissingKeysApi (en ja : JValue) (apiKey : Option Str)
    (net : Str → Str → Option Str) : ApiSyncState × List JValue :=
  let missingKeys := missingKeysApi en ja
  if missingKeys = [] then (⟨ja, 0, 0, []⟩, [])
  else
    let st := missingKeys.foldl (translateApiStep en apiKey net) ⟨ja, 0, 0, []⟩
    (st, [st.tree])

/- Tree well-formedness predicates used as hypotheses. -/

mutual
/-- Every object key in the tree is non-empty, dot-free, and unique within
its object (as `JSON.parse` guarantees for distinct source keys). -/
def wfKeysV : JValue → Bool
  | .obj fs => wfKeysF fs
  | .arr es ps => wfKeysE es && wfKeysF ps
  | _ => true
def wfKeysF : JFields → Bool
  | .nil => true
  | .cons k v rest =>
      !k.isEmpty && !k.contains '.' && !rest.hasKey k && wfKeysV v &&
      wfKeysF rest
def wfKeysE : JElems → Bool
  | .nil => true
  | .cons v rest => wfKeysV v && wfKeysE rest
end

def isObjB : JValue → Bool
  | .obj _ => true
  | _ => false

/-- A well-formed default tree: an object root with well-formed keys. -/
def goodDefaultTree (t : JValue) : Bool := isObjB t && wfKeysV t

mutual
/-- A tree of nested plain objects whose leaves are all strings (no arrays,
numbers, booleans or nulls). -/
def plainStrTreeV : JValue → Bool
  | .str _ => true
  | .obj fs => plainStrTreeF fs
  | _ => false
def plainStrTreeF : JFields → Bool
  | .nil => true
  | .cons _ v rest => plainStrTreeV v && plainStrTreeF rest
end

def isNoneOrObj : Option JValue → Bool
  | none => true
  | some (.obj _) => true
  | _ => false

/-- `undefined`, a plain object, or an array (a JavaScript object too). -/
def isNoneOrObjOrArr : Option JValue → Bool
  | none => true
  | some (.obj _) => true
  | some (.arr _ _) => true
  | _ => false

mutual
/-- The `JSON.parse(JSON.stringify(v))` image of a value: the write/reload
between two runs of a sync tool.  Structure is preserved except that the
own non-index properties of arrays are dropped. -/
def jsonRoundV : JValue → JValue
  | .obj fs => .obj (jsonRoundF fs)
  | .arr es _ => .arr (jsonRoundE es) .nil
  | v => v
def jsonRoundF : JFields → JFields
  | .nil => .nil
  | .cons k v rest => .cons k (jsonRoundV v) (jsonRoundF rest)
def jsonRoundE : JElems → JElems
  | .nil => .nil
  | .cons v rest => .cons (jsonRoundV v) (jsonRoundE rest)
end

def properPrefixes (l : List Str) : List (List Str) := l.inits.dropLast

/-- The target tree does not conflict with the given keys: every proper
prefix of each key resolves to `undefined` or a plain object. -/
def conflictFree (ja : JValue) (keys : List Str) : Bool :=
  keys.all (fun k =>
    (properPrefixes (splitOnChar '.' k)).all
      (fun p => isNoneOrObj (getSegs (some ja) p)))

/-- The dot-joined key the scripts build for a segment path below a prefix
(`prefix ? prefix + '.' + key : key` folded along the path). -/
def foldJoin (pfx : Str) (path : List Str) : Str := path.foldl joinKey pfx

/- ===================================================================== -/
/- Lemmas on the string utilities.                                        -/
/- ===================================================================== -/

theorem splitOnChar_ne_nil (c : Char) (s : Str) : splitOnChar c s ≠ [] := by
  cases s with
  | nil => simp [splitOnChar]
  | cons x xs =>
      simp only [splitOnChar]
      split
      · simp
      · split <;> simp

theorem splitOnChar_sep (c : Char) (s : Str) :
    splitOnChar c (c :: s) = [] :: splitOnChar c s := by
  simp [splitOnChar]

theorem splitOnChar_not_sep {c x : Char} (h : x ≠ c) (s : Str) :
    splitOnChar c (x :: s) =
      (x :: (splitOnChar c s).headD []) :: (splitOnChar c s).tail := by
  rcases h' : splitOnChar c s with _ | ⟨u, us⟩
  · exact absurd h' (splitOnChar_ne_nil c s)
  · simp [splitOnChar, h, h']

theorem splitOnChar_append_left {c : Char} {s : Str} (h : c ∉ s) (t : Str) :
    splitOnChar c (s ++ t) =
      (s ++ (splitOnChar c t).headD []) :: (splitOnChar c t).tail := by
  induction s with
  | nil =>
      rcases h' : splitOnChar c t with _ | ⟨u, us⟩
      · exact absurd h' (splitOnChar_ne_nil c t)
      · simp [h']
  | cons x xs ih =>
      have hx : x ≠ c := fun hc => h (hc ▸ List.mem_cons_self x xs)
      have hxs : c ∉ xs := fun hc => h (List.mem_cons_of_mem x hc)
      have := ih hxs
      rw [List.cons_append, splitOnChar_not_sep hx, this]
      simp

theorem splitOnChar_of_not_mem {c : Char} {s : Str} (h : c ∉ s) :
    splitOnChar c s = [s] := by
  have := splitOnChar_append_left h []
  simpa [splitOnChar] using this

theorem splitOnChar_append_sep (c : Char) (s : Str) :
    splitOnChar c (s ++ [c]) = splitOnChar c s ++ [[]] := by
  induction s with
  | nil => simp [splitOnChar]
  | cons x xs ih =>
      by_cases hx : x = c
      · subst hx
        rw [List.cons_append, splitOnChar_sep, splitOnChar_sep, ih]
        simp
      · rcases h' : splitOnChar c xs with _ | ⟨u, us⟩
        · exact absurd h' (splitOnChar_ne_nil c xs)
        · rw [List.cons_append, splitOnChar_not_sep hx, ih, h',
            splitOnChar_not_sep hx xs, h']
          simp

/- ===================================================================== -/
/- Lemmas on normalized paths.                                            -/
/- ===================================================================== -/

theorem render_cons (s : Str) (l : List Str) :
    render (s :: l) = '/' :: (s ++ render l) := by
  simp [render]

theorem render_ne_nil {l : List Str} (h : l ≠ []) : render l ≠ [] := by
  cases l with
  | nil => exact absurd rfl h
  | cons s l' => simp [render_cons]

theorem validSegs_tail {l : List Str} (h : ValidSegs l) : ValidSegs l.tail := by
  intro s hs
  exact h s (List.mem_of_mem_tail hs)

theorem validSegs_cons {s : Str} {l : List Str} :
    ValidSegs (s :: l) ↔ ValidSeg s ∧ ValidSegs l := by
  constructor
  · exact fun h => ⟨h s (List.mem_cons_self s l), fun x hx => h x (List.mem_cons_of_mem s hx)⟩
  · rintro ⟨hs, hl⟩ x hx
    rcases List.mem_cons.mp hx with rfl | hx
    · exact hs
    · exact hl x hx

theorem split_render {l : List Str} (h : ValidSegs l) (hne : l ≠ []) :
    splitOnChar '/' (render l) = [] :: l := by
  induction l with
  | nil => exact absurd rfl hne
  | cons s l' ih =>
      rcases validSegs_cons.mp h with ⟨⟨hs0, hs1⟩, hl'⟩
      rw [render_cons, splitOnChar_sep]
      by_cases h' : l' = []
      · subst h'
        rw [render, List.map_nil, List.flatten_nil, List.append_nil,
          splitOnChar_of_not_mem hs1]
      · rw [splitOnChar_append_left hs1, ih hl' h']
        simp

theorem segments_path {l : List Str} (h : ValidSegs l) :
    (splitOnChar '/' (pathOfSegs l)).filter (· ≠ []) = l := by
  by_cases hne : l = []
  · subst hne
    simp [pathOfSegs, splitOnChar]
  · rw [pathOfSegs, if_neg hne, split_render h hne]
    have h1 : (([] : Str) :: l).filter (· ≠ []) = l.filter (· ≠ []) := by simp
    rw [h1, List.filter_eq_self.mpr]
    intro s hs
    simpa using (h s hs).1

theorem getLast?_render {l : List Str} (h : ValidSegs l) (hne : l ≠ []) :
    ∀ ch, (render l).getLast? = some ch → ch ≠ '/' := by
  induction l with
  | nil => exact absurd rfl hne
  | cons s l' ih =>
      rcases validSegs_cons.mp h with ⟨⟨hs0, hs1⟩, hl'⟩
      intro ch hch
      by_cases h' : l' = []
      · subst h'
        rw [render_cons, render, List.map_nil, List.flatten_nil,
          List.append_nil, show ('/' :: s) = ['/'] ++ s by simp,
          List.getLast?_append_of_ne_nil ['/'] hs0] at hch
        rcases List.mem_getLast?_eq_getLast (show ch ∈ s.getLast? from hch)
          with ⟨hx, hEq⟩
        have hmem : ch ∈ s := hEq ▸ List.getLast_mem hx
        intro hc
        subst hc
        exact hs1 hmem
      · rw [render_cons] at hch
        have hr : render l' ≠ [] := render_ne_nil h'
        rw [show ('/' :: (s ++ render l')) = (('/' :: s) ++ render l') by simp,
          List.getLast?_append_of_ne_nil ('/' :: s) hr] at hch
        exact ih hl' h' ch hch

theorem dropTrailingSlash_render {l : List Str} (h : ValidSegs l)
    (hne : l ≠ []) : dropTrailingSlash (render l) = render l := by
  rw [dropTrailingSlash]
  split
  · rename_i hlast
    exact absurd rfl (getLast?_render h hne '/' hlast)
  · rfl

theorem replaceFirst_of_leading {pat s : Str} (repl : Str)
    (h : pat.isPrefixOf s) :
    replaceFirst pat repl s = repl ++ s.drop pat.length := by
  cases s with
  | nil => rw [replaceFirst, if_pos h]
  | cons x xs => rw [replaceFirst, if_pos h]

theorem getLocale1_path {l : List Str} (h : ValidSegs l) :
    getLocaleFromPathname1 (pathOfSegs l) =
      if l.headD [] = chars "ja" then chars "ja" else defaultLocale := by
  simp only [getLocaleFromPathname1]
  rw [segments_path h]
  cases l with
  | nil => simp [locales, defaultLocale, chars]
  | cons s l' =>
      simp only [List.headD_cons]
      by_cases hs : s ∈ locales
      · rcases (by simpa [locales] using hs : s = chars "en" ∨ s = chars "ja")
          with rfl | rfl
        · rw [if_pos hs]
          simp [defaultLocale, chars]
        · rw [if_pos hs, if_pos rfl]
      · rw [if_neg hs, if_neg]
        intro hc
        exact hs (by simp [locales, hc])

theorem getLocale2_path {l : List Str} (h : ValidSegs l) :
    getLocaleFromPathname2 (pathOfSegs l) =
      if l.headD [] = chars "ja" then chars "ja" else defaultLocale := by
  cases l with
  | nil => simp [pathOfSegs, locales, defaultLocale, chars]; decide
  | cons s l' =>
      have hne : (s :: l') ≠ [] := List.cons_ne_nil s l'
      have hs0 : s ≠ [] := (h s (List.mem_cons_self s l')).1
      simp only [getLocaleFromPathname2]
      rw [pathOfSegs, if_neg hne, dropTrailingSlash_render h hne,
        show render (s :: l') = pathOfSegs (s :: l') by rw [pathOfSegs, if_neg hne],
        segments_path h]
      simp only [List.headD_cons]
      by_cases hs : s ∈ locales
      · rcases (by simpa [locales] using hs : s = chars "en" ∨ s = chars "ja")
          with rfl | rfl
        · rw [if_pos ⟨hs0, hs⟩]
          simp [defaultLocale, chars]
        · rw [if_pos ⟨hs0, hs⟩, if_pos rfl]
      · rw [if_neg (fun hc => hs hc.2), if_neg]
        intro hc
        exact hs (by simp [locales, hc])

theorem validSegs_stripSegs {l : List Str} (h : ValidSegs l) :
    ValidSegs (stripSegs l) := by
  rw [stripSegs]
  split
  · exact validSegs_tail h
  · exact h

theorem strip1_path {l : List Str} (h : ValidSegs l) :
    stripLocaleFromPathname1 (pathOfSegs l) = pathOfSegs (stripSegs l) := by
  by_cases hja : l.headD [] = chars "ja"
  · cases l with
    | nil => simp [chars] at hja
    | cons s l' =>
        simp only [List.headD_cons] at hja
        subst hja
        have hne : (chars "ja" :: l') ≠ [] := List.cons_ne_nil _ _
        simp only [stripLocaleFromPathname1]
        rw [getLocale1_path h,
          show (if (chars "ja" :: l').headD [] = chars "ja" then chars "ja"
            else defaultLocale) = chars "ja" by simp,
          if_neg (by decide : ¬ chars "ja" = defaultLocale)]
        rw [pathOfSegs, if_neg hne, render_cons,
          show ('/' :: (chars "ja" ++ render l')) =
            (('/' :: chars "ja") ++ render l') by simp]
        rw [replaceFirst_of_leading []
          (List.isPrefixOf_iff_prefix.mpr (List.prefix_append _ _))]
        rw [List.nil_append, List.drop_left,
          show stripSegs (chars "ja" :: l') = l' by simp [stripSegs]]
        by_cases hl' : l' = []
        · subst hl'
          simp [render, pathOfSegs]
        · rw [if_neg (render_ne_nil hl'), pathOfSegs, if_neg hl']
  · simp only [stripLocaleFromPathname1]
    rw [getLocale1_path h, if_neg hja, if_pos rfl, stripSegs, if_neg hja]

theorem strip2_path {l : List Str} (h : ValidSegs l) :
    stripLocaleFromPathname2 (pathOfSegs l) = pathOfSegs (stripSegs l) := by
  by_cases hja : l.headD [] = chars "ja"
  · cases l with
    | nil => simp [chars] at hja
    | cons s l' =>
        simp only [List.headD_cons] at hja
        subst hja
        have hne : (chars "ja" :: l') ≠ [] := List.cons_ne_nil _ _
        have hrend : pathOfSegs (chars "ja" :: l') = render (chars "ja" :: l') := by
          rw [pathOfSegs, if_neg hne]
        simp only [stripLocaleFromPathname2]
        rw [hrend, dropTrailingSlash_render h hne, ← hrend, getLocale2_path h,
          show (if (chars "ja" :: l').headD [] = chars "ja" then chars "ja"
            else defaultLocale) = chars "ja" by simp,
          if_neg (by decide : ¬ chars "ja" = defaultLocale)]
        rw [hrend, render_cons]
        by_cases hl' : l' = []
        · subst hl'
          rw [show stripSegs (chars "ja" :: ([] : List Str)) = [] by
            simp [stripSegs]]
          simp [render, pathOfSegs, chars]
        · have hrl' : render l' ≠ [] := render_ne_nil hl'
          have hcp : ¬ ('/' :: (chars "ja" ++ render l')) = '/' :: chars "ja" := by
            intro hc
            have : chars "ja" ++ render l' = chars "ja" ++ [] := by
              simpa using hc
            exact hrl' (List.append_cancel_left this)
          rw [if_neg hcp]
          cases l' with
          | nil => exact absurd rfl hl'
          | cons s'' t =>
              have hs''0 : s'' ≠ [] :=
                ((validSegs_cons.mp (validSegs_tail h)).1).1
              rw [render_cons]
              have hpre : ('/' :: (chars "ja" ++ ['/'])).isPrefixOf
                  ('/' :: (chars "ja" ++ '/' :: (s'' ++ render t))) = true := by
                apply List.isPrefixOf_iff_prefix.mpr
                refine List.prefix_cons_inj '/' |>.mpr ?_
                show chars "ja" ++ ['/'] <+: chars "ja" ++ '/' :: (s'' ++ render t)
                rw [show chars "ja" ++ '/' :: (s'' ++ render t) =
                  (chars "ja" ++ ['/']) ++ (s'' ++ render t) by simp]
                exact List.prefix_append _ _
              rw [if_pos hpre]
              have hdrop : ('/' :: (chars "ja" ++ '/' :: (s'' ++ render t))).drop
                  ((chars "ja").length + 2) = s'' ++ render t := by
                simp [chars]
              rw [hdrop,
                show stripSegs (chars "ja" :: s'' :: t) = s'' :: t by
                  simp [stripSegs]]
              rw [if_neg (by simp), pathOfSegs,
                if_neg (List.cons_ne_nil s'' t), render_cons]
  · simp only [stripLocaleFromPathname2]
    have hg2 : getLocaleFromPathname2 (dropTrailingSlash (pathOfSegs l)) =
        defaultLocale := by
      by_cases hnil : l = []
      · subst hnil
        decide
      · rw [pathOfSegs, if_neg hnil, dropTrailingSlash_render h hnil,
          show render l = pathOfSegs l by rw [pathOfSegs, if_neg hnil],
          getLocale2_path h, if_neg hja]
    rw [hg2, if_pos rfl, stripSegs, if_neg hja]

theorem add1_default (p : Str) :
    addLocaleToPathname1 p defaultLocale = stripLocaleFromPathname1 p := by
  simp [addLocaleToPathname1]

theorem add2_default (p : Str) :
    addLocaleToPathname2 p defaultLocale = stripLocaleFromPathname2 p := by
  simp [addLocaleToPathname2]

theorem add1_ja_path {l : List Str} (h : ValidSegs l) :
    addLocaleToPathname1 (pathOfSegs l) (chars "ja") =
      if stripSegs l = [] then chars "/ja/"
      else pathOfSegs (chars "ja" :: stripSegs l) := by
  simp only [addLocaleToPathname1]
  rw [strip1_path h, if_neg (by decide : ¬ chars "ja" = defaultLocale)]
  by_cases hσ : stripSegs l = []
  · rw [if_pos hσ, hσ]
    decide
  · rw [if_neg hσ, pathOfSegs, if_neg hσ, pathOfSegs,
      if_neg (List.cons_ne_nil _ _), render_cons]

theorem add2_ja_path {l : List Str} (h : ValidSegs l) :
    addLocaleToPathname2 (pathOfSegs l) (chars "ja") =
      pathOfSegs (chars "ja" :: stripSegs l) := by
  simp only [addLocaleToPathname2]
  rw [strip2_path h, if_neg (by decide : ¬ chars "ja" = defaultLocale)]
  by_cases hσ : stripSegs l = []
  · rw [hσ]
    decide
  · have hσvalid : ValidSegs (stripSegs l) := validSegs_stripSegs h
    cases hσ' : stripSegs l with
    | nil => exact absurd hσ' hσ
    | cons s t =>
        have hs0 : s ≠ [] := ((validSegs_cons.mp (hσ' ▸ hσvalid)).1).1
        have hp : pathOfSegs (s :: t) = '/' :: (s ++ render t) := by
          rw [pathOfSegs, if_neg (List.cons_ne_nil s t), render_cons]
        have hpre : (['/'] : Str).isPrefixOf ('/' :: (s ++ render t)) = true := by
          simp [List.isPrefixOf_iff_prefix]
        have hne2 : ¬ ('/' :: (s ++ render t) : Str) = ['/'] := by
          simpa using fun hc => hs0 (List.append_eq_nil.mp hc).1
        have hrhs : pathOfSegs (chars "ja" :: s :: t) =
            '/' :: (chars "ja" ++ ('/' :: (s ++ render t))) := by
          rw [pathOfSegs, if_neg (List.cons_ne_nil _ _), render_cons, render_cons]
        rw [hp, if_pos hpre, if_neg hne2, hrhs]

theorem firstSegment_path {l : List Str} (h : ValidSegs l) :
    firstSegment (pathOfSegs l) = l.headD [] := by
  rw [firstSegment, segments_path h]

theorem headD_ne_ja_of_strip2_default {l : List Str} (hvalid : ValidSegs l)
    (h : getLocaleFromPathname2 (stripLocaleFromPathname2 (pathOfSegs l)) =
      defaultLocale) :
    (stripSegs l).headD [] ≠ chars "ja" := by
  rw [strip2_path hvalid, getLocale2_path (validSegs_stripSegs hvalid)] at h
  intro hc
  rw [if_pos hc] at h
  exact absurd h (by decide)

theorem stripSegs_ja_cons (σ : List Str) :
    stripSegs (chars "ja" :: σ) = σ := by
  simp [stripSegs]

theorem stripSegs_of_headD_ne {l : List Str} (h : l.headD [] ≠ chars "ja") :
    stripSegs l = l := by
  rw [stripSegs, if_neg h]

/-- C1 (amended).  Round-trip law for both revisions of the locale/path
utilities: for every supported locale `L` and normalized path `P`,
`stripLocale (addLocale P L) = stripLocale P` holds whenever `L` is not the
default locale, or the stripped form of `P` carries no non-default locale
prefix (i.e. `P` does not begin with a doubled `/ja/ja` prefix).  The
unamended claim, quantified over all normalized paths, fails for the default
locale on doubled-prefix paths (see the counterexample). -/
theorem roundTrip_locale_paths (l : List Str) (L : Str)
    (hvalid : ValidSegs l) (hL : L ∈ locales)
    (hcond : L ≠ defaultLocale ∨
      getLocaleFromPathname2 (stripLocaleFromPathname2 (pathOfSegs l)) =
        defaultLocale) :
    stripLocaleFromPathname1 (addLocaleToPathname1 (pathOfSegs l) L) =
      stripLocaleFromPathname1 (pathOfSegs l) ∧
    stripLocaleFromPathname2 (addLocaleToPathname2 (pathOfSegs l) L) =
      stripLocaleFromPathname2 (pathOfSegs l) := by
  have hσvalid : ValidSegs (stripSegs l) := validSegs_stripSegs hvalid
  have hL' : L = defaultLocale ∨ L = chars "ja" := by
    simpa [locales, defaultLocale] using hL
  rcases hL' with rfl | rfl
  · rcases hcond with hc | hc
    · exact absurd rfl hc
    · have hσja : (stripSegs l).headD [] ≠ chars "ja" :=
        headD_ne_ja_of_strip2_default hvalid hc
      have hfix : stripSegs (stripSegs l) = stripSegs l :=
        stripSegs_of_headD_ne hσja
      constructor
      · rw [add1_default, strip1_path hvalid, strip1_path hσvalid, hfix]
      · rw [add2_default, strip2_path hvalid, strip2_path hσvalid, hfix]
  · have hjaσ : ValidSegs (chars "ja" :: stripSegs l) := by
      rw [validSegs_cons]
      exact ⟨by decide, hσvalid⟩
    constructor
    · rw [add1_ja_path hvalid]
      by_cases hσ : stripSegs l = []
      · rw [if_pos hσ, strip1_path hvalid, hσ]
        decide
      · rw [if_neg hσ, strip1_path hjaσ, strip1_path hvalid,
          stripSegs_ja_cons]
    · rw [add2_ja_path hvalid, strip2_path hjaσ, strip2_path hvalid,
        stripSegs_ja_cons]

/-- C1 witness: the round-trip law at the normalized path `/react/start`
with the supported locale `ja`. -/
theorem roundTrip_locale_paths_witness :
    ValidSegs [chars "react", chars "start"] ∧ chars "ja" ∈ locales ∧
    (stripLocaleFromPathname1
        (addLocaleToPathname1 (pathOfSegs [chars "react", chars "start"])
          (chars "ja")) =
      stripLocaleFromPathname1 (pathOfSegs [chars "react", chars "start"]) ∧
    stripLocaleFromPathname2
        (addLocaleToPathname2 (pathOfSegs [chars "react", chars "start"])
          (chars "ja")) =
      stripLocaleFromPathname2 (pathOfSegs [chars "react", chars "start"])) :=
  ⟨by decide, by decide,
    roundTrip_locale_paths [chars "react", chars "start"] (chars "ja")
      (by decide) (by decide) (Or.inl (by decide))⟩

/-- C1 counterexample: the claim as stated fails at the normalized path
`/ja/ja` with the supported (default) locale `en`, in both revisions:
`stripLocale (addLocale "/ja/ja" "en")` is `"/"` while
`stripLocale "/ja/ja"` is `"/ja"`. -/
theorem roundTrip_fails_on_doubled_prefix :
    ValidSegs [chars "ja", chars "ja"] ∧ defaultLocale ∈ locales ∧
    stripLocaleFromPathname1
        (addLocaleToPathname1 (pathOfSegs [chars "ja", chars "ja"])
          defaultLocale) ≠
      stripLocaleFromPathname1 (pathOfSegs [chars "ja", chars "ja"]) ∧
    stripLocaleFromPathname2
        (addLocaleToPathname2 (pathOfSegs [chars "ja", chars "ja"])
          defaultLocale) ≠
      stripLocaleFromPathname2 (pathOfSegs [chars "ja", chars "ja"]) := by
  decide

/-- C7 (amended).  Default-locale invariant for both revisions: provided the
stripped form of the normalized path `P` carries no non-default locale
prefix (i.e. `P` does not begin with `/ja/ja`),
`getLocaleFromPathname (addLocaleToPathname P defaultLocale)` is the default
locale, and the produced path carries no first segment equal to a
non-default supported locale code.  The unamended claim fails in two ways:
on `/ja/ja` the produced path still carries a `ja` prefix, and a path such
as `/en/docs` keeps its `en` first segment, which is a supported locale
code (see the counterexample). -/
theorem default_locale_invariant (l : List Str) (hvalid : ValidSegs l)
    (hcond : getLocaleFromPathname2 (stripLocaleFromPathname2 (pathOfSegs l)) =
      defaultLocale) :
    getLocaleFromPathname1 (addLocaleToPathname1 (pathOfSegs l) defaultLocale) =
      defaultLocale ∧
    getLocaleFromPathname2 (addLocaleToPathname2 (pathOfSegs l) defaultLocale) =
      defaultLocale ∧
    (∀ L ∈ locales, L ≠ defaultLocale →
      firstSegment (addLocaleToPathname1 (pathOfSegs l) defaultLocale) ≠ L ∧
      firstSegment (addLocaleToPathname2 (pathOfSegs l) defaultLocale) ≠ L) := by
  have hσvalid : ValidSegs (stripSegs l) := validSegs_stripSegs hvalid
  have hσja : (stripSegs l).headD [] ≠ chars "ja" :=
    headD_ne_ja_of_strip2_default hvalid hcond
  refine ⟨?_, ?_, ?_⟩
  · rw [add1_default, strip1_path hvalid, getLocale1_path hσvalid,
      if_neg hσja]
  · rw [add2_default, strip2_path hvalid, getLocale2_path hσvalid,
      if_neg hσja]
  · intro L hLmem hLne
    have hLja : L = chars "ja" := by
      rcases (by simpa [locales] using hLmem : L = chars "en" ∨ L = chars "ja")
        with rfl | rfl
      · exact absurd (show chars "en" = defaultLocale by decide) hLne
      · rfl
    subst hLja
    constructor
    · rw [add1_default, strip1_path hvalid, firstSegment_path hσvalid]
      exact hσja
    · rw [add2_default, strip2_path hvalid, firstSegment_path hσvalid]
      exact hσja

/-- C7 witness: the default-locale invariant at the normalized path
`/react/start`. -/
theorem default_locale_invariant_witness :
    ValidSegs [chars "react", chars "start"] ∧
    (getLocaleFromPathname1
        (addLocaleToPathname1 (pathOfSegs [chars "react", chars "start"])
          defaultLocale) = defaultLocale ∧
    getLocaleFromPathname2
        (addLocaleToPathname2 (pathOfSegs [chars "react", chars "start"])
          defaultLocale) = defaultLocale ∧
    (∀ L ∈ locales, L ≠ defaultLocale →
      firstSegment (addLocaleToPathname1 (pathOfSegs [chars "react", chars "start"])
        defaultLocale) ≠ L ∧
      firstSegment (addLocaleToPathname2 (pathOfSegs [chars "react", chars "start"])
        defaultLocale) ≠ L)) :=
  ⟨by decide,
    default_locale_invariant [chars "react", chars "start"] (by decide)
      (by decide)⟩

/-- C7 counterexample: the claim as stated fails at concrete normalized
paths.  At `/ja/ja`, `getLocaleFromPathname (addLocaleToPathname P
defaultLocale)` is `ja`, not the default locale, in both revisions; and at
`/en/docs` the produced path's first segment is `en`, a supported locale
code, although the claim asserts that no first segment equals any supported
locale code. -/
theorem default_locale_invariant_counterexample :
    ValidSegs [chars "ja", chars "ja"] ∧
    ValidSegs [chars "en", chars "docs"] ∧
    getLocaleFromPathname1
        (addLocaleToPathname1 (pathOfSegs [chars "ja", chars "ja"])
          defaultLocale) ≠ defaultLocale ∧
    getLocaleFromPathname2
        (addLocaleToPathname2 (pathOfSegs [chars "ja", chars "ja"])
          defaultLocale) ≠ defaultLocale ∧
    firstSegment (addLocaleToPathname1 (pathOfSegs [chars "en", chars "docs"])
        defaultLocale) ∈ locales ∧
    firstSegment (addLocaleToPathname2 (pathOfSegs [chars "en", chars "docs"])
        defaultLocale) ∈ locales := by
  decide

/- ===================================================================== -/
/- C2: translation lookup.                                                -/
/- ===================================================================== -/

/-- C2 (amended).  Translation lookup.  (1) Three-tier fallback law for the
`t` of `I18nContext.tsx`: the key is split on `"."`; if the walk of the
active-locale tree ends at a string, that string is returned; otherwise the
default tree is walked under the same rule; if that also fails the key is
returned verbatim.  In particular, a key missing from the target tree that
maps to a string in the default tree resolves to the default tree's value,
and a key absent from both trees resolves to itself.  (2) The `t` of the
`part_006` revision has only the first tier: when the active-tree walk
yields a string it agrees with (1), but on any miss it returns the key
verbatim — it never consults a default tree, so the claim's fallback clause
fails for that cited implementation (see the counterexample). -/
theorem lookup_three_tier_fallback :
    (∀ (messages fallbackMessages : JValue) (key : Str),
      (∀ s, lookupWalk (some messages) (splitOnChar '.' key) =
          some (JValue.str s) →
        tLookup messages fallbackMessages key = s) ∧
      (isStrResult (lookupWalk (some messages) (splitOnChar '.' key)) =
          false →
        ∀ s, lookupWalk (some fallbackMessages) (splitOnChar '.' key) =
            some (JValue.str s) →
          tLookup messages fallbackMessages key = s) ∧
      (isStrResult (lookupWalk (some messages) (splitOnChar '.' key)) =
          false →
        isStrResult (lookupWalk (some fallbackMessages)
          (splitOnChar '.' key)) = false →
        tLookup messages fallbackMessages key = key)) ∧
    (∀ (messages : JValue) (key : Str),
      (∀ s, lookupWalk (some messages) (splitOnChar '.' key) =
          some (JValue.str s) →
        tLookupSingle messages key = s) ∧
      (isStrResult (lookupWalk (some messages) (splitOnChar '.' key)) =
          false →
        tLookupSingle messages key = key)) := by
  constructor
  · intro messages fallbackMessages key
    refine ⟨?_, ?_, ?_⟩
    · intro s hs
      simp only [tLookup, hs]
    · intro hm s hf
      rcases hww : lookupWalk (some messages) (splitOnChar '.' key) with _ | v
      · simp only [tLookup, hww, hf]
      · rw [hww] at hm
        cases v
        case str =>
          simp only [isStrResult] at hm
          exact absurd hm (by decide)
        all_goals simp only [tLookup, hww, hf]
    · intro hm hfb
      rcases hww : lookupWalk (some messages) (splitOnChar '.' key) with _ | v
      · rcases hwf : lookupWalk (some fallbackMessages) (splitOnChar '.' key)
          with _ | w
        · simp only [tLookup, hww, hwf]
        · rw [hwf] at hfb
          cases w
          case str =>
            simp only [isStrResult] at hfb
            exact absurd hfb (by decide)
          all_goals simp only [tLookup, hww, hwf]
      · rw [hww] at hm
        rcases hwf : lookupWalk (some fallbackMessages) (splitOnChar '.' key)
          with _ | w
        · cases v
          case str =>
            simp only [isStrResult] at hm
            exact absurd hm (by decide)
          all_goals simp only [tLookup, hww, hwf]
        · rw [hwf] at hfb
          cases v
          case str =>
            simp only [isStrResult] at hm
            exact absurd hm (by decide)
          all_goals
            cases w
            case str =>
              simp only [isStrResult] at hfb
              exact absurd hfb (by decide)
            all_goals simp only [tLookup, hww, hwf]
  · intro messages key
    constructor
    · intro s hs
      simp only [tLookupSingle, hs]
    · intro hm
      rcases hww : lookupWalk (some messages) (splitOnChar '.' key) with _ | v
      · simp only [tLookupSingle, hww]
      · rw [hww] at hm
        cases v
        case str =>
          simp only [isStrResult] at hm
          exact absurd hm (by decide)
        all_goals simp only [tLookupSingle, hww]

/-- C2 counterexample.  The claim cites both `t` implementations, but the
fallback clause fails for the `part_006` revision: with active tree `{}`
and default tree `{"greeting":"hello"}`, the `I18nContext.tsx` lookup
returns the default tree's `"hello"`, while the `part_006` lookup returns
the key `"greeting"` itself — that revision never consults a default
tree. -/
theorem single_tree_lookup_skips_fallback :
    tLookup (JValue.obj .nil)
        (JValue.obj (.cons (chars "greeting") (JValue.str (chars "hello"))
          .nil))
        (chars "greeting") = chars "hello" ∧
    tLookupSingle (JValue.obj .nil) (chars "greeting") = chars "greeting" ∧
    (chars "greeting" : Str) ≠ chars "hello" :=
  ⟨rfl, rfl, by decide⟩

/-- C2 witness: with target tree `{}` and default tree
`{"home":{"title":"Hello"}}`, the `I18nContext.tsx` `t("home.title")`
returns `"Hello"`; with both trees `{}` it returns `"home.title"` itself;
and the `part_006` `t("home.title")` with active tree `{}` returns
`"home.title"`. -/
theorem lookup_three_tier_fallback_witness :
    tLookup (JValue.obj .nil)
        (JValue.obj (.cons (chars "home")
          (JValue.obj (.cons (chars "title") (JValue.str (chars "Hello")) .nil))
          .nil))
        (chars "home.title") = chars "Hello" ∧
    tLookup (JValue.obj .nil) (JValue.obj .nil) (chars "home.title") =
      chars "home.title" ∧
    tLookupSingle (JValue.obj .nil) (chars "home.title") =
      chars "home.title" :=
  ⟨((lookup_three_tier_fallback).1 (JValue.obj .nil)
      (JValue.obj (.cons (chars "home")
        (JValue.obj (.cons (chars "title") (JValue.str (chars "Hello")) .nil))
        .nil))
      (chars "home.title")).2.1 (by rfl) (chars "Hello") (by rfl),
   ((lookup_three_tier_fallback).1 (JValue.obj .nil) (JValue.obj .nil)
      (chars "home.title")).2.2 (by rfl) (by rfl),
   ((lookup_three_tier_fallback).2 (JValue.obj .nil)
      (chars "home.title")).2 (by rfl)⟩

/- ===================================================================== -/
/- C3 and C9: navigation interceptors.                                    -/
/- ===================================================================== -/

theorem filter_split_dropTrailingSlash (s : Str) :
    (splitOnChar '/' (dropTrailingSlash s)).filter (· ≠ []) =
      (splitOnChar '/' s).filter (· ≠ []) := by
  rw [dropTrailingSlash]
  split
  · rename_i hlast
    conv_rhs =>
      rw [← List.dropLast_append_getLast? '/' (show '/' ∈ s.getLast? from hlast)]
    rw [splitOnChar_append_sep, List.filter_append]
    simp
  · rfl

theorem getLocale2_dropTrailingSlash (p : Str) :
    getLocaleFromPathname2 (dropTrailingSlash p) = getLocaleFromPathname2 p := by
  simp only [getLocaleFromPathname2]
  rw [filter_split_dropTrailingSlash (dropTrailingSlash p),
    filter_split_dropTrailingSlash p]

theorem strip2_of_default {href : Str}
    (h : getLocaleFromPathname2 href = defaultLocale) :
    stripLocaleFromPathname2 href = href := by
  simp only [stripLocaleFromPathname2]
  rw [getLocale2_dropTrailingSlash, h, if_pos rfl]

theorem getLocale2_mem_locales (p : Str) :
    getLocaleFromPathname2 p ∈ locales := by
  simp only [getLocaleFromPathname2]
  split
  · rename_i hcond
    exact hcond.2
  · simp [locales, defaultLocale]

/-- C3 (amended).  Interceptor correction law.  For the `I18nContext.tsx`
interceptor: every idle-state (no navigation in flight) activation of an
internal link while the active locale is non-default and the link's path
does not carry the active locale's prefix is suppressed, and the
programmatic navigation target is
`addLocaleToPathname(stripLocaleFromPathname(href), locale)`.  For the
`useLocalizedNavigation.ts` hook the same holds under one additional
condition: the href must not string-start with `'/' + locale` — the hook
compares with `href.startsWith`, so e.g. `/javascript` under locale `ja` is
NOT intercepted even though its first segment is not the locale (see the
counterexample). -/
theorem interceptor_corrects_target :
    (∀ (locale href : Str), locale ∈ locales → locale ≠ defaultLocale →
      isExternalHrefCtx href = false →
      getLocaleFromPathname2 href ≠ locale →
      handleClickCtx false locale (some href) =
        ClickOutcome.navigate
          (addLocaleToPathname2 (stripLocaleFromPathname2 href) locale)) ∧
    (∀ (asPath href : Str),
      getLocaleFromPathname2 asPath ≠ defaultLocale →
      getLocaleFromPathname2 href = defaultLocale →
      isExternalHrefHook href = false →
      ('/' :: getLocaleFromPathname2 asPath).isPrefixOf href = false →
      handleClickHook asPath (some href) =
        ClickOutcome.navigate
          (addLocaleToPathname2 (stripLocaleFromPathname2 href)
            (getLocaleFromPathname2 asPath))) := by
  constructor
  · intro locale href hmem hne hext hloc
    simp only [handleClickCtx, if_neg (by decide : ¬ False), hext,
      Bool.false_eq_true, if_false]
    rw [if_pos ⟨hne, hloc⟩]
  · intro asPath href hcur htgt hext hpre
    simp only [handleClickHook, hext, Bool.false_eq_true, if_false]
    rw [if_pos ⟨by simpa [defaultLocale] using hcur, by simpa [defaultLocale] using htgt,
      by simp [hpre]⟩, strip2_of_default htgt]

/-- C3 counterexample: the hook interceptor of `useLocalizedNavigation.ts`
violates the claim at `href = "/javascript"` with active locale `ja` (from
`asPath = "/ja/docs"`): the link is internal, the active locale is
non-default, and the link's path does not carry the `ja` prefix (its first
segment is `javascript`), yet the activation is not intercepted — the
default navigation is allowed instead of navigating to `/ja/javascript`. -/
theorem interceptor_misses_string_prefix_collision :
    getLocaleFromPathname2 (chars "/ja/docs") ≠ defaultLocale ∧
    getLocaleFromPathname2 (chars "/javascript") ≠
      getLocaleFromPathname2 (chars "/ja/docs") ∧
    isExternalHrefHook (chars "/javascript") = false ∧
    handleClickHook (chars "/ja/docs") (some (chars "/javascript")) =
      ClickOutcome.allow ∧
    handleClickHook (chars "/ja/docs") (some (chars "/javascript")) ≠
      ClickOutcome.navigate
        (addLocaleToPathname2 (stripLocaleFromPathname2 (chars "/javascript"))
          (getLocaleFromPathname2 (chars "/ja/docs"))) := by
  decide

/-- C3 witness (spec scenario 5): activating a link to `/react/start` while
the active locale is `ja` navigates to `/ja/react/start`. -/
theorem interceptor_corrects_target_witness :
    handleClickCtx false (chars "ja") (some (chars "/react/start")) =
      ClickOutcome.navigate
        (addLocaleToPathname2 (stripLocaleFromPathname2 (chars "/react/start"))
          (chars "ja")) ∧
    addLocaleToPathname2 (stripLocaleFromPathname2 (chars "/react/start"))
      (chars "ja") = chars "/ja/react/start" :=
  ⟨(interceptor_corrects_target).1 (chars "ja") (chars "/react/start")
      (by decide) (by decide) (by decide) (by decide),
   by decide⟩

/-- C9.  Re-entrancy guard of the `I18nContext.tsx` interceptor, over the
event model: from every reachable state, at most one interceptor-initiated
navigation is in flight; while the in-flight flag is set every further link
activation leaves the state unchanged (no additional navigation); and a
settle (success or failure of the in-flight `router.push`) clears the
flag. -/
theorem handleClickCtx_inflight (locale : Str) (href? : Option Str) :
    handleClickCtx true locale href? = ClickOutcome.blocked := rfl

theorem navigation_reentrancy_guard (s : NavState) (hs : NavReachable s) :
    s.inflight ≤ 1 ∧
    (s.flag = true → ∀ (locale : Str) (href? : Option Str),
      navStep s (NavEvent.click locale href?) = s) ∧
    (navStep s NavEvent.settle).flag = false := by
  have hinv : ∀ t : NavState, NavReachable t →
      t.inflight = if t.flag then 1 else 0 := by
    intro t ht
    induction ht with
    | init => rfl
    | step e hprev ih =>
        rename_i t'
        cases e with
        | click locale href? =>
            rcases hout : handleClickCtx t'.flag locale href? with _ | _ | tgt
            · simpa only [navStep, hout] using ih
            · simpa only [navStep, hout] using ih
            · have hflag : t'.flag = false := by
                by_contra hf
                rw [show t'.flag = true by simpa using hf,
                  handleClickCtx_inflight] at hout
                exact absurd hout (by simp)
              rw [hflag] at ih
              simp only [navStep, hout]
              simp at ih
              simp [ih]
        | settle =>
            simp only [navStep]
            rw [ih]
            split <;> simp
  refine ⟨?_, ?_, ?_⟩
  · rw [hinv s hs]
    split <;> simp
  · intro hflag locale href?
    have hbl : handleClickCtx s.flag locale href? = ClickOutcome.blocked := by
      rw [hflag, handleClickCtx_inflight]
    simp [navStep, hbl]
  · simp [navStep]

/-- C9 witness: the state with the flag set and one navigation in flight is
reachable (initial state, then an intercepted click), and in that state a
further click is ignored. -/
theorem navigation_reentrancy_guard_witness :
    NavReachable ⟨true, 1⟩ ∧ (⟨true, 1⟩ : NavState).inflight ≤ 1 ∧
    navStep ⟨true, 1⟩ (NavEvent.click (chars "ja") (some (chars "/docs"))) =
      ⟨true, 1⟩ := by
  have hreach : NavReachable ⟨true, 1⟩ := by
    have h1 : navStep ⟨false, 0⟩
        (NavEvent.click (chars "ja") (some (chars "/docs"))) = ⟨true, 1⟩ := by
      decide
    exact h1 ▸ NavReachable.step _ NavReachable.init
  refine ⟨hreach, (navigation_reentrancy_guard ⟨true, 1⟩ hreach).1,
    (navigation_reentrancy_guard ⟨true, 1⟩ hreach).2.1 rfl (chars "ja")
      (some (chars "/docs"))⟩

/- ===================================================================== -/
/- Lemmas on the JSON model.                                              -/
/- ===================================================================== -/

theorem getSegs_none (ks : List Str) : getSegs none ks = none := by
  induction ks with
  | nil => rfl
  | cons k rest ih => simpa [getSegs] using ih

theorem getSegs_cons_some (v : JValue) (k : Str) (rest : List Str) :
    getSegs (some v) (k :: rest) = getSegs (jsGet v k) rest := rfl

theorem getSegs_append (acc : Option JValue) (a b : List Str) :
    getSegs acc (a ++ b) = getSegs (getSegs acc a) b := by
  induction a generalizing acc with
  | nil => rfl
  | cons k rest ih =>
      simp only [List.cons_append, getSegs]
      exact ih _

/-- Plain list-style induction for `JFields` (the `induction` tactic cannot
use the mutual recursor directly). -/
theorem JFields.recListF {motive : JFields → Prop} (nil : motive .nil)
    (cons : ∀ (k : Str) (v : JValue) (rest : JFields),
      motive rest → motive (.cons k v rest)) :
    ∀ fs, motive fs
  | .nil => nil
  | .cons k v rest => cons k v rest (JFields.recListF nil cons rest)

/-- Plain list-style induction for `JElems`. -/
theorem JElems.recListE {motive : JElems → Prop} (nil : motive .nil)
    (cons : ∀ (v : JValue) (rest : JElems),
      motive rest → motive (.cons v rest)) :
    ∀ es, motive es
  | .nil => nil
  | .cons v rest => cons v rest (JElems.recListE nil cons rest)

theorem JFields.get?_set_self (fs : JFields) (k : Str) (v : JValue) :
    (fs.set k v).get? k = some v := by
  induction fs using JFields.recListF with
  | nil => simp [JFields.set, JFields.get?]
  | cons k' v' rest ih =>
      by_cases hk : k' = k
      · simp [JFields.set, JFields.get?, hk]
      · simp [JFields.set, JFields.get?, hk, ih]

theorem JFields.get?_set_ne (fs : JFields) {k j : Str} (v : JValue)
    (h : j ≠ k) : (fs.set k v).get? j = fs.get? j := by
  induction fs using JFields.recListF with
  | nil => simp [JFields.set, JFields.get?, Ne.symm h]
  | cons k' v' rest ih =>
      by_cases hk : k' = k
      · subst hk
        simp [JFields.set, JFields.get?, Ne.symm h]
      · simp only [JFields.set, if_neg hk]
        by_cases hj : k' = j
        · simp [JFields.get?, hj]
        · simp [JFields.get?, hj, ih]

theorem properPrefixes_cons (a : Str) (l : List Str) :
    properPrefixes (a :: l) = [] :: (properPrefixes l).map (a :: ·) := by
  have hne : (l.inits.map fun t => a :: t) ≠ [] := by
    simp [← List.length_pos_iff_ne_nil, List.length_inits]
  rw [properPrefixes, List.inits_cons, List.dropLast_cons_of_ne_nil hne,
    properPrefixes, ← List.map_dropLast]

theorem mem_properPrefixes {p : List Str} {l : List Str} :
    p ∈ properPrefixes l ↔ p <+: l ∧ p ≠ l := by
  induction l generalizing p with
  | nil =>
      constructor
      · intro hp
        simp [properPrefixes, List.inits] at hp
      · rintro ⟨hpre, hne⟩
        exact absurd (List.prefix_nil.mp hpre) hne
  | cons a l' ih =>
      rw [properPrefixes_cons]
      constructor
      · intro hp
        rcases List.mem_cons.mp hp with rfl | hp
        · exact ⟨List.nil_prefix, by simp⟩
        · rcases List.mem_map.mp hp with ⟨q, hq, rfl⟩
          rcases ih.mp hq with ⟨hqp, hqne⟩
          exact ⟨List.cons_prefix_cons.mpr ⟨rfl, hqp⟩, by
            intro hc
            exact hqne (by simpa using hc)⟩
      · rintro ⟨hpre, hne⟩
        cases p with
        | nil => exact List.mem_cons_self _ _
        | cons x q =>
            rcases List.cons_prefix_cons.mp hpre with ⟨rfl, hq⟩
            refine List.mem_cons_of_mem _ (List.mem_map.mpr ⟨q, ih.mpr ⟨hq, ?_⟩, rfl⟩)
            intro hc
            exact hne (by rw [hc])

theorem isNoneOrObj_iff {o : Option JValue} :
    isNoneOrObj o = true ↔ o = none ∨ ∃ fs, o = some (JValue.obj fs) := by
  cases o with
  | none => simp [isNoneOrObj]
  | some v => cases v <;> simp [isNoneOrObj]

theorem getSegs_objNil_ne_nil {q : List Str} (h : q ≠ []) :
    getSegs (some (JValue.obj .nil)) q = none := by
  cases q with
  | nil => exact absurd rfl h
  | cons j q2 =>
      rw [getSegs_cons_some]
      simp [jsGet, JFields.get?, getSegs_none]

/-- Core insertion lemma for `setValue`'s walk: if every proper prefix of
the key path resolves to `undefined` or a plain object, the walk succeeds,
the inserted value is readable at the full path, every proper prefix now
resolves to an object, and every path that neither extends nor is a prefix
of the key path is untouched. -/
theorem setSegs_insert : ∀ (ks : List Str) (t : JValue) (v : JValue),
    ks ≠ [] →
    (∀ p, p <+: ks → p ≠ ks → isNoneOrObj (getSegs (some t) p) = true) →
    ∃ t', setSegs t ks v = some t' ∧
      getSegs (some t') ks = some v ∧
      (∀ p, p <+: ks → p ≠ ks →
        ∃ fs, getSegs (some t') p = some (JValue.obj fs)) ∧
      (∀ p, ¬ p <+: ks → ¬ ks <+: p →
        getSegs (some t') p = getSegs (some t) p)
  | [], _, _, hne, _ => absurd rfl hne
  | [key], t, v, _, hpre => by
      obtain ⟨fs, rfl⟩ : ∃ fs, t = JValue.obj fs := by
        have h0 := hpre [] List.nil_prefix (by simp)
        rcases isNoneOrObj_iff.mp h0 with hc | ⟨fs, hfs⟩
        · exact absurd hc (by simp [getSegs])
        · exact ⟨fs, by simpa [getSegs] using hfs⟩
      refine ⟨JValue.obj (fs.set key v), rfl, ?_, ?_, ?_⟩
      · rw [getSegs_cons_some]
        simp [getSegs, jsGet, JFields.get?_set_self]
      · intro p hp hpne
        have hpnil : p = [] := by
          cases p with
          | nil => rfl
          | cons x q =>
              rcases List.cons_prefix_cons.mp hp with ⟨rfl, hq⟩
              exact absurd (by rw [List.prefix_nil.mp hq]) hpne
        subst hpnil
        exact ⟨fs.set key v, rfl⟩
      · intro p hnp hnsp
        cases p with
        | nil => exact absurd List.nil_prefix hnp
        | cons j q =>
            have hj : j ≠ key := by
              intro hc
              subst hc
              exact hnsp (List.cons_prefix_cons.mpr ⟨rfl, List.nil_prefix⟩)
            rw [getSegs_cons_some, getSegs_cons_some]
            simp only [jsGet]
            rw [JFields.get?_set_ne fs v hj]
  | key :: k2 :: ks', t, v, _, hpre => by
      obtain ⟨fs, rfl⟩ : ∃ fs, t = JValue.obj fs := by
        have h0 := hpre [] List.nil_prefix (by simp)
        rcases isNoneOrObj_iff.mp h0 with hc | ⟨fs, hfs⟩
        · exact absurd hc (by simp [getSegs])
        · exact ⟨fs, by simpa [getSegs] using hfs⟩
      have hrestne : (k2 :: ks') ≠ [] := List.cons_ne_nil k2 ks'
      rcases hc : fs.get? key with _ | c
      · -- the property read is undefined: a fresh object is created
        have hpre' : ∀ p, p <+: (k2 :: ks') → p ≠ (k2 :: ks') →
            isNoneOrObj (getSegs (some (JValue.obj .nil)) p) = true := by
          intro p hp hpne
          cases p with
          | nil => rfl
          | cons j q => rw [getSegs_objNil_ne_nil (List.cons_ne_nil j q)]; rfl
        obtain ⟨c', hc'eq, hc'get, hc'pre, hc'frame⟩ :=
          setSegs_insert (k2 :: ks') (JValue.obj .nil) v hrestne hpre'
        refine ⟨JValue.obj (fs.set key c'), ?_, ?_, ?_, ?_⟩
        · simp only [setSegs, hc, hc'eq, Option.map_some']
        · rw [getSegs_cons_some]
          simp only [jsGet, JFields.get?_set_self]
          exact hc'get
        · intro p hp hpne
          cases p with
          | nil => exact ⟨fs.set key c', rfl⟩
          | cons j q =>
              rcases List.cons_prefix_cons.mp hp with ⟨rfl, hq⟩
              have hqne : q ≠ (k2 :: ks') := fun h2 => hpne (by rw [h2])
              rw [getSegs_cons_some]
              simp only [jsGet, JFields.get?_set_self]
              exact hc'pre q hq hqne
        · intro p hnp hnsp
          cases p with
          | nil => exact absurd List.nil_prefix hnp
          | cons j q =>
              by_cases hj : j = key
              · subst hj
                have hnq : ¬ q <+: (k2 :: ks') := fun h2 =>
                  hnp (List.cons_prefix_cons.mpr ⟨rfl, h2⟩)
                have hnsq : ¬ (k2 :: ks') <+: q := fun h2 =>
                  hnsp (List.cons_prefix_cons.mpr ⟨rfl, h2⟩)
                have hqnil : q ≠ [] := by
                  intro hc2
                  subst hc2
                  exact hnq List.nil_prefix
                rw [getSegs_cons_some, getSegs_cons_some]
                simp only [jsGet, JFields.get?_set_self, hc]
                rw [hc'frame q hnq hnsq, getSegs_objNil_ne_nil hqnil,
                  getSegs_none]
              · rw [getSegs_cons_some, getSegs_cons_some]
                simp only [jsGet]
                rw [JFields.get?_set_ne fs c' hj]
      · -- the property read found a child, which must be an object
        obtain ⟨cf, rfl⟩ : ∃ cf, c = JValue.obj cf := by
          have h1 := hpre [key]
            (List.cons_prefix_cons.mpr ⟨rfl, List.nil_prefix⟩) (by simp)
          rw [getSegs_cons_some] at h1
          simp only [jsGet, hc, getSegs] at h1
          rcases isNoneOrObj_iff.mp h1 with hc2 | ⟨cf, hcf⟩
          · exact absurd hc2 (by simp)
          · exact ⟨cf, by simpa using hcf⟩
        have hpre' : ∀ p, p <+: (k2 :: ks') → p ≠ (k2 :: ks') →
            isNoneOrObj (getSegs (some (JValue.obj cf)) p) = true := by
          intro p hp hpne
          have := hpre (key :: p) (List.cons_prefix_cons.mpr ⟨rfl, hp⟩)
            (fun h2 => hpne (by injection h2))
          rw [getSegs_cons_some] at this
          simpa only [jsGet, hc] using this
        obtain ⟨c', hc'eq, hc'get, hc'pre, hc'frame⟩ :=
          setSegs_insert (k2 :: ks') (JValue.obj cf) v hrestne hpre'
        refine ⟨JValue.obj (fs.set key c'), ?_, ?_, ?_, ?_⟩
        · simp only [setSegs, hc, truthy, hc'eq, Option.map_some']
          simp
        · rw [getSegs_cons_some]
          simp only [jsGet, JFields.get?_set_self]
          exact hc'get
        · intro p hp hpne
          cases p with
          | nil => exact ⟨fs.set key c', rfl⟩
          | cons j q =>
              rcases List.cons_prefix_cons.mp hp with ⟨rfl, hq⟩
              have hqne : q ≠ (k2 :: ks') := fun h2 => hpne (by rw [h2])
              rw [getSegs_cons_some]
              simp only [jsGet, JFields.get?_set_self]
              exact hc'pre q hq hqne
        · intro p hnp hnsp
          cases p with
          | nil => exact absurd List.nil_prefix hnp
          | cons j q =>
              by_cases hj : j = key
              · subst hj
                have hnq : ¬ q <+: (k2 :: ks') := fun h2 =>
                  hnp (List.cons_prefix_cons.mpr ⟨rfl, h2⟩)
                have hnsq : ¬ (k2 :: ks') <+: q := fun h2 =>
                  hnsp (List.cons_prefix_cons.mpr ⟨rfl, h2⟩)
                rw [getSegs_cons_some, getSegs_cons_some]
                simp only [jsGet, JFields.get?_set_self, hc]
                exact hc'frame q hnq hnsq
              · rw [getSegs_cons_some, getSegs_cons_some]
                simp only [jsGet]
                rw [JFields.get?_set_ne fs c' hj]

theorem jsGet_str_shape {s key : Str} {c : JValue}
    (h : jsGet (JValue.str s) key = some c) :
    (∃ ch, c = JValue.str [ch]) ∨ ∃ n : Int, c = JValue.num n := by
  rcases hi : strToNat? key with _ | i
  · simp only [jsGet, hi] at h
    split at h
    · right
      refine ⟨s.length, ?_⟩
      injection h with h2
      exact h2.symm
    · cases h
  · simp only [jsGet, hi] at h
    rcases hg : s.get? i with _ | ch
    · rw [hg] at h
      cases h
    · rw [hg] at h
      left
      refine ⟨ch, ?_⟩
      injection h with h2
      exact h2.symm

/-- Once the `setValue` walk stands on a string or number, it always ends in
a strict-mode `TypeError`: property reads on these primitives yield only
characters, `length`, or `undefined`, and the final assignment throws. -/
theorem setSegs_prim_none : ∀ (ks : List Str), ks ≠ [] → ∀ (v : JValue),
    (∀ s, setSegs (JValue.str s) ks v = none) ∧
    (∀ n : Int, setSegs (JValue.num n) ks v = none)
  | [], h, _ => absurd rfl h
  | [key], _, v => ⟨fun _ => rfl, fun _ => rfl⟩
  | key :: k2 :: ks', _, v => by
      have ih := setSegs_prim_none (k2 :: ks') (List.cons_ne_nil _ _) v
      constructor
      · intro s
        simp only [setSegs]
        rcases hg : jsGet (JValue.str s) key with _ | c
        · simp only [hg]
        · simp only [hg]
          rcases jsGet_str_shape hg with ⟨ch, rfl⟩ | ⟨n, rfl⟩
          · split
            · exact ih.1 [ch]
            · rfl
          · split
            · exact ih.2 n
            · rfl
      · intro n
        rfl

theorem getSegs_num_not_str (n : Int) (p : List Str) (s' : Str) :
    getSegs (some (JValue.num n)) p ≠ some (JValue.str s') := by
  cases p with
  | nil => simp [getSegs]
  | cons j q =>
      rw [getSegs_cons_some]
      simp [jsGet, getSegs_none]

theorem getSegs_bool_not_str (b : Bool) (p : List Str) (s' : Str) :
    getSegs (some (JValue.bool b)) p ≠ some (JValue.str s') := by
  cases p with
  | nil => simp [getSegs]
  | cons j q =>
      rw [getSegs_cons_some]
      simp [jsGet, getSegs_none]

theorem getSegs_null_not_str (p : List Str) (s' : Str) :
    getSegs (some JValue.null) p ≠ some (JValue.str s') := by
  cases p with
  | nil => simp [getSegs]
  | cons j q =>
      rw [getSegs_cons_some]
      simp [jsGet, getSegs_none]

theorem getSegs_emptyStr_not_str (p : List Str) (s' : Str) (hp : p ≠ []) :
    getSegs (some (JValue.str [])) p ≠ some (JValue.str s') := by
  cases p with
  | nil => exact absurd rfl hp
  | cons j q =>
      rw [getSegs_cons_some]
      simp only [jsGet]
      rcases hi : strToNat? j with _ | i
      · simp only [hi]
        split
        · exact getSegs_num_not_str _ q s'
        · rw [getSegs_none]
          simp
      · simp only [hi, List.get?, Option.map_none']
        rw [getSegs_none]
        simp

/-- If a walk from `c` reaches a non-empty string, `c` is truthy. -/
theorem truthy_of_getSegs_str {c : JValue} {p : List Str} {s' : Str}
    (h : getSegs (some c) p = some (JValue.str s')) (hs : s' ≠ []) :
    truthy c = true := by
  cases c with
  | str s0 =>
      cases s0 with
      | nil =>
          rcases hp : p with _ | ⟨j, q⟩
          · rw [hp] at h
            simp only [getSegs] at h
            injection h with h2
            injection h2 with h3
            exact absurd h3.symm hs
          · exact absurd (hp ▸ h)
              (getSegs_emptyStr_not_str (j :: q) s' (List.cons_ne_nil j q))
      | cons a as => rfl
  | num n => exact absurd h (getSegs_num_not_str n p s')
  | bool b => exact absurd h (getSegs_bool_not_str b p s')
  | null => exact absurd h (getSegs_null_not_str p s')
  | obj fs => rfl
  | arr es ps => rfl

/-- Throw lemma for `setValue`'s walk: if some proper prefix of the key path
resolves to a non-empty string, the walk throws a strict-mode
`TypeError`. -/
theorem setSegs_throws : ∀ (p ks : List Str) (t : JValue) (v : JValue)
    (s : Str), p <+: ks → p ≠ ks →
    getSegs (some t) p = some (JValue.str s) → s ≠ [] →
    setSegs t ks v = none
  | [], ks, t, v, s, _, hne, hget, hs => by
      have ht : t = JValue.str s := by
        simp only [getSegs] at hget
        injection hget
      subst ht
      have hksne : ks ≠ [] := fun hc => hne hc.symm
      exact (setSegs_prim_none ks hksne v).1 s
  | j :: p', ks, t, v, s, hp, hne, hget, hs => by
      obtain ⟨ks', rfl⟩ : ∃ ks', ks = j :: ks' := by
        cases ks with
        | nil => exact absurd (List.prefix_nil.mp hp) (by simp)
        | cons a ks' =>
            rcases List.cons_prefix_cons.mp hp with ⟨rfl, _⟩
            exact ⟨ks', rfl⟩
      have hp' : p' <+: ks' := (List.cons_prefix_cons.mp hp).2
      have hne' : p' ≠ ks' := fun hc => hne (by rw [hc])
      have hksne' : ks' ≠ [] := by
        intro hc
        subst hc
        exact hne' (List.prefix_nil.mp hp')
      rw [getSegs_cons_some] at hget
      rcases hjg : jsGet t j with _ | c
      · rw [hjg, getSegs_none] at hget
        cases hget
      · rw [hjg] at hget
        have htr : truthy c = true := truthy_of_getSegs_str hget hs
        have hrec : setSegs c ks' v = none :=
          setSegs_throws p' ks' c v s hp' hne' hget hs
        obtain ⟨k2, ks'', rfl⟩ : ∃ k2 ks'', ks' = k2 :: ks'' := by
          cases ks' with
          | nil => exact absurd rfl hksne'
          | cons a b => exact ⟨a, b, rfl⟩
        cases t with
        | obj fs =>
            simp only [jsGet] at hjg
            simp only [setSegs, hjg, htr, if_true, hrec, Option.map_none']
        | arr es ps =>
            simp only [jsGet] at hjg
            rcases hi : strToNat? j with _ | i
            · simp only [hi] at hjg
              split at hjg
              · injection hjg with h2
                subst h2
                exact absurd hget (getSegs_num_not_str _ p' s)
              · rename_i hlen
                simp only [setSegs, hi, if_neg hlen, hjg, htr, if_true, hrec,
                  Option.map_none']
            · simp only [hi] at hjg
              simp only [setSegs, hi, hjg, htr, if_true, hrec,
                Option.map_none']
        | str s0 =>
            simp only [setSegs, hjg, htr, if_true, hrec]
        | num n => simp [jsGet] at hjg
        | bool b => simp [jsGet] at hjg
        | null => simp [jsGet] at hjg

theorem isNoneOrObjOrArr_iff {o : Option JValue} :
    isNoneOrObjOrArr o = true ↔
      o = none ∨ (∃ fs, o = some (JValue.obj fs)) ∨
        ∃ es ps, o = some (JValue.arr es ps) := by
  cases o with
  | none => simp [isNoneOrObjOrArr]
  | some v => cases v <;> simp [isNoneOrObjOrArr]

theorem truthy_of_isNoneOrObjOrArr {c : JValue}
    (h : isNoneOrObjOrArr (some c) = true) : truthy c = true := by
  cases c with
  | obj fs => rfl
  | arr es ps => rfl
  | str s => simp [isNoneOrObjOrArr] at h
  | num n => simp [isNoneOrObjOrArr] at h
  | bool b => simp [isNoneOrObjOrArr] at h
  | null => simp [isNoneOrObjOrArr] at h

theorem jsGet_arrSet_self (es : JElems) (ps : JFields) (key : Str)
    (c' : JValue) (hidx : strToNat? key = none)
    (hlen : key ≠ chars "length") :
    jsGet (JValue.arr es (ps.set key c')) key = some c' := by
  simp only [jsGet, hidx, if_neg hlen, JFields.get?_set_self]

theorem jsGet_arrSet_ne (es : JElems) (ps : JFields) {key j : Str}
    (c' : JValue) (hj : j ≠ key) :
    jsGet (JValue.arr es (ps.set key c')) j = jsGet (JValue.arr es ps) j := by
  rcases hi : strToNat? j with _ | i
  · simp only [jsGet, hi]
    by_cases hl : j = chars "length"
    · rw [if_pos hl, if_pos hl]
    · rw [if_neg hl, if_neg hl, JFields.get?_set_ne ps c' hj]
  · simp only [jsGet, hi]

/-- Generalised insertion lemma for `setValue`'s walk, allowing array
prefixes: if every proper prefix of the key path resolves to `undefined`, a
plain object, or an array, and every segment walked on an array prefix is a
non-index key other than `length`, the walk succeeds, the inserted value is
readable at the full path, and every path that neither extends nor is a
prefix of the key path is untouched. -/
theorem setSegs_insert_gen : ∀ (ks : List Str) (t : JValue) (v : JValue),
    ks ≠ [] →
    (∀ p, p <+: ks → p ≠ ks → isNoneOrObjOrArr (getSegs (some t) p) = true) →
    (∀ p seg es ps, p ++ [seg] <+: ks →
      getSegs (some t) p = some (JValue.arr es ps) →
      strToNat? seg = none ∧ seg ≠ chars "length") →
    ∃ t', setSegs t ks v = some t' ∧
      getSegs (some t') ks = some v ∧
      (∀ p, ¬ p <+: ks → ¬ ks <+: p →
        getSegs (some t') p = getSegs (some t) p)
  | [], _, _, hne, _, _ => absurd rfl hne
  | [key], t, v, _, hpre, harr => by
      have h0 : isNoneOrObjOrArr (some t) = true :=
        hpre [] List.nil_prefix (by simp)
      rcases isNoneOrObjOrArr_iff.mp h0 with hc | ⟨fs, hfs⟩ | ⟨es, ps, hap⟩
      · cases hc
      · obtain rfl : t = JValue.obj fs := by injection hfs
        refine ⟨JValue.obj (fs.set key v), rfl, ?_, ?_⟩
        · rw [getSegs_cons_some]
          simp [getSegs, jsGet, JFields.get?_set_self]
        · intro p hnp hnsp
          cases p with
          | nil => exact absurd List.nil_prefix hnp
          | cons j q =>
              have hj : j ≠ key := by
                intro hc2
                subst hc2
                exact hnsp (List.cons_prefix_cons.mpr ⟨rfl, List.nil_prefix⟩)
              rw [getSegs_cons_some, getSegs_cons_some]
              simp only [jsGet]
              rw [JFields.get?_set_ne fs v hj]
      · obtain rfl : t = JValue.arr es ps := by injection hap
        obtain ⟨hidx, hlen⟩ :=
          harr [] key es ps (List.prefix_refl [key]) rfl
        refine ⟨JValue.arr es (ps.set key v), ?_, ?_, ?_⟩
        · show jsAssign (JValue.arr es ps) key v = _
          simp only [jsAssign, hidx, if_neg hlen]
        · rw [getSegs_cons_some, jsGet_arrSet_self es ps key v hidx hlen]
          rfl
        · intro p hnp hnsp
          cases p with
          | nil => exact absurd List.nil_prefix hnp
          | cons j q =>
              have hj : j ≠ key := by
                intro hc2
                subst hc2
                exact hnsp (List.cons_prefix_cons.mpr ⟨rfl, List.nil_prefix⟩)
              rw [getSegs_cons_some, getSegs_cons_some,
                jsGet_arrSet_ne es ps v hj]
  | key :: k2 :: ks', t, v, _, hpre, harr => by
      have h0 : isNoneOrObjOrArr (some t) = true :=
        hpre [] List.nil_prefix (by simp)
      have hrestne : (k2 :: ks') ≠ [] := List.cons_ne_nil k2 ks'
      have hpre0 : ∀ p, p <+: (k2 :: ks') → p ≠ (k2 :: ks') →
          isNoneOrObjOrArr (getSegs (some (JValue.obj .nil)) p) = true := by
        intro p hp hpne
        cases p with
        | nil => rfl
        | cons j q => rw [getSegs_objNil_ne_nil (List.cons_ne_nil j q)]; rfl
      have harr0 : ∀ p seg es2 ps2, p ++ [seg] <+: (k2 :: ks') →
          getSegs (some (JValue.obj .nil)) p = some (JValue.arr es2 ps2) →
          strToNat? seg = none ∧ seg ≠ chars "length" := by
        intro p seg es2 ps2 _ hg
        cases p with
        | nil => simp [getSegs] at hg
        | cons j q =>
            rw [getSegs_objNil_ne_nil (List.cons_ne_nil j q)] at hg
            cases hg
      have hchild : ∀ c : JValue, jsGet t key = some c →
          truthy c = true ∧
          (∀ p, p <+: (k2 :: ks') → p ≠ (k2 :: ks') →
            isNoneOrObjOrArr (getSegs (some c) p) = true) ∧
          (∀ p seg es2 ps2, p ++ [seg] <+: (k2 :: ks') →
            getSegs (some c) p = some (JValue.arr es2 ps2) →
            strToNat? seg = none ∧ seg ≠ chars "length") := by
        intro c hcg
        refine ⟨?_, ?_, ?_⟩
        · have h1 := hpre [key]
            (List.cons_prefix_cons.mpr ⟨rfl, List.nil_prefix⟩) (by simp)
          rw [getSegs_cons_some, hcg] at h1
          exact truthy_of_isNoneOrObjOrArr h1
        · intro p hp hpne
          have h2 := hpre (key :: p) (List.cons_prefix_cons.mpr ⟨rfl, hp⟩)
            (fun h3 => hpne (by injection h3))
          rw [getSegs_cons_some, hcg] at h2
          exact h2
        · intro p seg es2 ps2 hp hg
          refine harr (key :: p) seg es2 ps2
            (List.cons_prefix_cons.mpr ⟨rfl, hp⟩) ?_
          rw [getSegs_cons_some, hcg]
          exact hg
      rcases isNoneOrObjOrArr_iff.mp h0 with hc0 | ⟨fs, hfs⟩ | ⟨es, ps, hap⟩
      · cases hc0
      · obtain rfl : t = JValue.obj fs := by injection hfs
        rcases hc : fs.get? key with _ | c
        · obtain ⟨c', hc'eq, hc'get, hc'frame⟩ :=
            setSegs_insert_gen (k2 :: ks') (JValue.obj .nil) v hrestne
              hpre0 harr0
          refine ⟨JValue.obj (fs.set key c'), ?_, ?_, ?_⟩
          · simp only [setSegs, hc, hc'eq, Option.map_some']
          · rw [getSegs_cons_some]
            simp only [jsGet, JFields.get?_set_self]
            exact hc'get
          · intro p hnp hnsp
            cases p with
            | nil => exact absurd List.nil_prefix hnp
            | cons j q =>
                by_cases hj : j = key
                · subst hj
                  have hnq : ¬ q <+: (k2 :: ks') := fun h2 =>
                    hnp (List.cons_prefix_cons.mpr ⟨rfl, h2⟩)
                  have hnsq : ¬ (k2 :: ks') <+: q := fun h2 =>
                    hnsp (List.cons_prefix_cons.mpr ⟨rfl, h2⟩)
                  have hqnil : q ≠ [] := by
                    intro hc2
                    subst hc2
                    exact hnq List.nil_prefix
                  rw [getSegs_cons_some, getSegs_cons_some]
                  simp only [jsGet, JFields.get?_set_self, hc]
                  rw [hc'frame q hnq hnsq, getSegs_objNil_ne_nil hqnil,
                    getSegs_none]
                · rw [getSegs_cons_some, getSegs_cons_some]
                  simp only [jsGet]
                  rw [JFields.get?_set_ne fs c' hj]
        · have hcg : jsGet (JValue.obj fs) key = some c := hc
          obtain ⟨htr, hpre', harr'⟩ := hchild c hcg
          obtain ⟨c', hc'eq, hc'get, hc'frame⟩ :=
            setSegs_insert_gen (k2 :: ks') c v hrestne hpre' harr'
          refine ⟨JValue.obj (fs.set key c'), ?_, ?_, ?_⟩
          · simp only [setSegs, hc, htr, if_true, hc'eq, Option.map_some']
          · rw [getSegs_cons_some]
            simp only [jsGet, JFields.get?_set_self]
            exact hc'get
          · intro p hnp hnsp
            cases p with
            | nil => exact absurd List.nil_prefix hnp
            | cons j q =>
                by_cases hj : j = key
                · subst hj
                  have hnq : ¬ q <+: (k2 :: ks') := fun h2 =>
                    hnp (List.cons_prefix_cons.mpr ⟨rfl, h2⟩)
                  have hnsq : ¬ (k2 :: ks') <+: q := fun h2 =>
                    hnsp (List.cons_prefix_cons.mpr ⟨rfl, h2⟩)
                  rw [getSegs_cons_some, getSegs_cons_some]
                  simp only [jsGet, JFields.get?_set_self, hc]
                  exact hc'frame q hnq hnsq
                · rw [getSegs_cons_some, getSegs_cons_some]
                  simp only [jsGet]
                  rw [JFields.get?_set_ne fs c' hj]
      · obtain rfl : t = JValue.arr es ps := by injection hap
        obtain ⟨hidx, hlen⟩ := harr [] key es ps
          (List.cons_prefix_cons.mpr ⟨rfl, List.nil_prefix⟩) rfl
        rcases hc : ps.get? key with _ | c
        · have hrg : jsGet (JValue.arr es ps) key = none := by
            simp only [jsGet, hidx, if_neg hlen, hc]
          obtain ⟨c', hc'eq, hc'get, hc'frame⟩ :=
            setSegs_insert_gen (k2 :: ks') (JValue.obj .nil) v hrestne
              hpre0 harr0
          refine ⟨JValue.arr es (ps.set key c'), ?_, ?_, ?_⟩
          · simp only [setSegs, hidx, if_neg hlen, hc, hc'eq,
              Option.map_some']
          · rw [getSegs_cons_some, jsGet_arrSet_self es ps key c' hidx hlen]
            exact hc'get
          · intro p hnp hnsp
            cases p with
            | nil => exact absurd List.nil_prefix hnp
            | cons j q =>
                by_cases hj : j = key
                · subst hj
                  have hnq : ¬ q <+: (k2 :: ks') := fun h2 =>
                    hnp (List.cons_prefix_cons.mpr ⟨rfl, h2⟩)
                  have hnsq : ¬ (k2 :: ks') <+: q := fun h2 =>
                    hnsp (List.cons_prefix_cons.mpr ⟨rfl, h2⟩)
                  have hqnil : q ≠ [] := by
                    intro hc2
                    subst hc2
                    exact hnq List.nil_prefix
                  rw [getSegs_cons_some, getSegs_cons_some,
                    jsGet_arrSet_self es ps j c' hidx hlen, hrg,
                    getSegs_none, hc'frame q hnq hnsq,
                    getSegs_objNil_ne_nil hqnil]
                · rw [getSegs_cons_some, getSegs_cons_some,
                    jsGet_arrSet_ne es ps c' hj]
        · have hcg : jsGet (JValue.arr es ps) key = some c := by
            simp only [jsGet, hidx, if_neg hlen, hc]
          obtain ⟨htr, hpre', harr'⟩ := hchild c hcg
          obtain ⟨c', hc'eq, hc'get, hc'frame⟩ :=
            setSegs_insert_gen (k2 :: ks') c v hrestne hpre' harr'
          refine ⟨JValue.arr es (ps.set key c'), ?_, ?_, ?_⟩
          · simp only [setSegs, hidx, if_neg hlen, hc, htr, if_true, hc'eq,
              Option.map_some']
          · rw [getSegs_cons_some, jsGet_arrSet_self es ps key c' hidx hlen]
            exact hc'get
          · intro p hnp hnsp
            cases p with
            | nil => exact absurd List.nil_prefix hnp
            | cons j q =>
                by_cases hj : j = key
                · subst hj
                  have hnq : ¬ q <+: (k2 :: ks') := fun h2 =>
                    hnp (List.cons_prefix_cons.mpr ⟨rfl, h2⟩)
                  have hnsq : ¬ (k2 :: ks') <+: q := fun h2 =>
                    hnsp (List.cons_prefix_cons.mpr ⟨rfl, h2⟩)
                  rw [getSegs_cons_some, getSegs_cons_some,
                    jsGet_arrSet_self es ps j c' hidx hlen, hcg]
                  exact hc'frame q hnq hnsq
                · rw [getSegs_cons_some, getSegs_cons_some,
                    jsGet_arrSet_ne es ps c' hj]

/-- C10 (amended).  `setValue`/`getValue` law of the sync scripts.
(1) If every proper prefix of the dot-path resolves in `t` to `undefined`
or an object — plain or array: an array prefix accepts the walked segment
as an ordinary own property, readable by `getValue` until `JSON.stringify`
drops it — and every segment walked on an array prefix is a non-index key
other than `length` (an index segment would extend the array, `length`
would throw a `RangeError`), then `setValue` succeeds, `getValue` reads
back the written value, and every path that is neither an extension nor a
prefix of the key path resolves to its previous value (prefixes of the key
path gain a member, and so do not keep their previous value).
(2) If some proper prefix resolves to a NON-EMPTY string, `setValue` throws
(strict-mode assignment to a property of a primitive).  The unamended claim
fails in both directions: an empty-string (falsy) prefix is silently
overwritten with a fresh object instead of throwing, and the frame fails
for prefixes of the key path, which gain a member (see the
counterexample). -/
theorem setValue_getValue_law :
    (∀ (t : JValue) (keyPath : Str) (v : JValue),
      (properPrefixes (splitOnChar '.' keyPath)).all
          (fun p => isNoneOrObjOrArr (getSegs (some t) p)) = true →
      (∀ p seg es ps, p ++ [seg] <+: splitOnChar '.' keyPath →
        getSegs (some t) p = some (JValue.arr es ps) →
        strToNat? seg = none ∧ seg ≠ chars "length") →
      ∃ t', setValue t keyPath v = some t' ∧
        getValue t' keyPath = some v ∧
        (∀ p, ¬ p <+: splitOnChar '.' keyPath →
          ¬ splitOnChar '.' keyPath <+: p →
          getSegs (some t') p = getSegs (some t) p)) ∧
    (∀ (t : JValue) (keyPath : Str) (v : JValue) (p : List Str) (s : Str),
      p <+: splitOnChar '.' keyPath → p ≠ splitOnChar '.' keyPath →
      getSegs (some t) p = some (JValue.str s) → s ≠ [] →
      setValue t keyPath v = none) := by
  constructor
  · intro t keyPath v hall harr
    have hpre : ∀ p, p <+: splitOnChar '.' keyPath →
        p ≠ splitOnChar '.' keyPath →
        isNoneOrObjOrArr (getSegs (some t) p) = true := by
      intro p hp hpne
      exact List.all_eq_true.mp hall p (mem_properPrefixes.mpr ⟨hp, hpne⟩)
    obtain ⟨t', heq, hget, hframe⟩ :=
      setSegs_insert_gen (splitOnChar '.' keyPath) t v
        (splitOnChar_ne_nil '.' keyPath) hpre harr
    exact ⟨t', heq, hget, hframe⟩
  · intro t keyPath v p s hp hpne hget hs
    exact setSegs_throws p (splitOnChar '.' keyPath) t v s hp hpne hget hs

/-- C10 counterexample.  With `t = {"a": ""}` the proper prefix `a` of
`a.b` resolves to a string, yet `setValue(t, "a.b", v)` does NOT throw (the
falsy read is overwritten with `{}`), contradicting the claim's throw
clause.  With `t = {"a": {}}` the previously present path `a` — which is
not an extension of `a.b` — no longer resolves to its previous value after
`setValue(t, "a.b", v)`, contradicting the claim's frame clause. -/
theorem setValue_overwrites_falsy_prefix :
    getValue (JValue.obj (.cons (chars "a") (JValue.str []) .nil))
      (chars "a") = some (JValue.str []) ∧
    (setValue (JValue.obj (.cons (chars "a") (JValue.str []) .nil))
      (chars "a.b") (JValue.str (chars "v"))).isSome = true ∧
    getValue (JValue.obj (.cons (chars "a") (JValue.obj .nil) .nil))
      (chars "a") = some (JValue.obj .nil) ∧
    setValue (JValue.obj (.cons (chars "a") (JValue.obj .nil) .nil))
        (chars "a.b") (JValue.str (chars "v")) =
      some (JValue.obj (.cons (chars "a")
        (JValue.obj (.cons (chars "b") (JValue.str (chars "v")) .nil)) .nil)) ∧
    getValue (JValue.obj (.cons (chars "a")
        (JValue.obj (.cons (chars "b") (JValue.str (chars "v")) .nil)) .nil))
      (chars "a") ≠ some (JValue.obj .nil) := by
  refine ⟨rfl, rfl, rfl, rfl, ?_⟩
  intro hc
  have h1 : (JValue.obj (.cons (chars "b") (JValue.str (chars "v")) .nil)) =
      JValue.obj .nil := by
    injection hc
  injection h1 with h2
  cases h2

/-- C10 witness: inserting `"v"` at `a.b` into `{"a": ["x"]}` succeeds —
the array prefix `a` accepts `b` as an own property — and `getValue` reads
the value back; and `setValue({"a":"hello"}, "a.b", v)` throws; by applying
both parts of the law at concrete inputs. -/
theorem setValue_getValue_law_witness :
    (properPrefixes (splitOnChar '.' (chars "a.b"))).all
        (fun p => isNoneOrObjOrArr (getSegs (some (JValue.obj
          (.cons (chars "a")
            (JValue.arr (.cons (JValue.str (chars "x")) .nil) .nil)
            .nil))) p)) = true ∧
    (∀ p seg es ps, p ++ [seg] <+: splitOnChar '.' (chars "a.b") →
      getSegs (some (JValue.obj (.cons (chars "a")
          (JValue.arr (.cons (JValue.str (chars "x")) .nil) .nil) .nil))) p =
        some (JValue.arr es ps) →
      strToNat? seg = none ∧ seg ≠ chars "length") ∧
    (∃ t', setValue (JValue.obj (.cons (chars "a")
        (JValue.arr (.cons (JValue.str (chars "x")) .nil) .nil) .nil))
        (chars "a.b") (JValue.str (chars "v")) = some t' ∧
      getValue t' (chars "a.b") = some (JValue.str (chars "v")) ∧
      (∀ p, ¬ p <+: splitOnChar '.' (chars "a.b") →
        ¬ splitOnChar '.' (chars "a.b") <+: p →
        getSegs (some t') p = getSegs (some (JValue.obj
          (.cons (chars "a")
            (JValue.arr (.cons (JValue.str (chars "x")) .nil) .nil)
            .nil))) p)) ∧
    setValue (JValue.obj (.cons (chars "a") (JValue.str (chars "hello")) .nil))
      (chars "a.b") (JValue.str (chars "x")) = none := by
  have hlg : ∀ p seg es ps, p ++ [seg] <+: splitOnChar '.' (chars "a.b") →
      getSegs (some (JValue.obj (.cons (chars "a")
          (JValue.arr (.cons (JValue.str (chars "x")) .nil) .nil) .nil))) p =
        some (JValue.arr es ps) →
      strToNat? seg = none ∧ seg ≠ chars "length" := by
    intro p seg es ps hp hg
    have hp2 : p ++ [seg] <+: [chars "a", chars "b"] := hp
    cases p with
    | nil => simp [getSegs] at hg
    | cons x p' =>
        obtain ⟨rfl, hp'⟩ := List.cons_prefix_cons.mp hp2
        cases p' with
        | nil =>
            obtain ⟨rfl, -⟩ := List.cons_prefix_cons.mp hp'
            exact ⟨by decide, by decide⟩
        | cons y p'' =>
            obtain ⟨-, hp''⟩ := List.cons_prefix_cons.mp hp'
            rw [List.prefix_nil] at hp''
            simp at hp''
  refine ⟨by decide, hlg, ?_, ?_⟩
  · exact (setValue_getValue_law).1 _ (chars "a.b") (JValue.str (chars "v"))
      (by decide) hlg
  · exact (setValue_getValue_law).2
      (JValue.obj (.cons (chars "a") (JValue.str (chars "hello")) .nil))
      (chars "a.b") (JValue.str (chars "x")) [chars "a"] (chars "hello")
      ⟨[chars "b"], rfl⟩ (by decide) (by rfl) (by decide)

/- ===================================================================== -/
/- C8: credential handling of the API-backed sync tool.                   -/
/- ===================================================================== -/

theorem api_fold_noKey (en : JValue) (net : Str → Str → Option Str) :
    ∀ (ks : List Str) (st : ApiSyncState),
      (ks.foldl (translateApiStep en none net) st).tree = st.tree ∧
      (ks.foldl (translateApiStep en none net) st).translated =
        st.translated ∧
      (ks.foldl (translateApiStep en none net) st).attempted =
        st.attempted ++ ks.filter (fun k => isStrResult (getValue en k)) ∧
      (ks.foldl (translateApiStep en none net) st).errors =
        st.errors + (ks.filter (fun k => isStrResult (getValue en k))).length
  | [], st => by simp
  | k :: ks, st => by
      have ih := api_fold_noKey en net ks (translateApiStep en none net st k)
      rw [List.foldl_cons]
      rcases hg : getValue en k with _ | v
      · have hstep : translateApiStep en none net st k = st := by
          simp only [translateApiStep, hg]
        rw [hstep] at ih
        have hfil : (k :: ks).filter (fun k => isStrResult (getValue en k)) =
            ks.filter (fun k => isStrResult (getValue en k)) := by
          rw [List.filter_cons]
          simp [hg, isStrResult]
        rw [hstep, hfil]
        exact ih
      · cases v with
        | str s =>
            have hstep : translateApiStep en none net st k =
                { st with errors := st.errors + 1,
                          attempted := st.attempted ++ [k] } := by
              simp only [translateApiStep, hg]
            rw [hstep] at ih
            have hfil : (k :: ks).filter (fun k => isStrResult (getValue en k)) =
                k :: ks.filter (fun k => isStrResult (getValue en k)) := by
              rw [List.filter_cons]
              simp [hg, isStrResult]
            rw [hstep, hfil]
            refine ⟨ih.1, ih.2.1, ?_, ?_⟩
            · rw [ih.2.2.1]
              simp
            · rw [ih.2.2.2]
              simp only [List.length_cons]
              omega
        | num n =>
            have hstep : translateApiStep en none net st k = st := by
              simp only [translateApiStep, hg]
            rw [hstep] at ih
            have hfil : (k :: ks).filter (fun k => isStrResult (getValue en k)) =
                ks.filter (fun k => isStrResult (getValue en k)) := by
              rw [List.filter_cons]
              simp [hg, isStrResult]
            rw [hstep, hfil]
            exact ih
        | bool b =>
            have hstep : translateApiStep en none net st k = st := by
              simp only [translateApiStep, hg]
            rw [hstep] at ih
            have hfil : (k :: ks).filter (fun k => isStrResult (getValue en k)) =
                ks.filter (fun k => isStrResult (getValue en k)) := by
              rw [List.filter_cons]
              simp [hg, isStrResult]
            rw [hstep, hfil]
            exact ih
        | null =>
            have hstep : translateApiStep en none net st k = st := by
              simp only [translateApiStep, hg]
            rw [hstep] at ih
            have hfil : (k :: ks).filter (fun k => isStrResult (getValue en k)) =
                ks.filter (fun k => isStrResult (getValue en k)) := by
              rw [List.filter_cons]
              simp [hg, isStrResult]
            rw [hstep, hfil]
            exact ih
        | obj fs =>
            have hstep : translateApiStep en none net st k = st := by
              simp only [translateApiStep, hg]
            rw [hstep] at ih
            have hfil : (k :: ks).filter (fun k => isStrResult (getValue en k)) =
                ks.filter (fun k => isStrResult (getValue en k)) := by
              rw [List.filter_cons]
              simp [hg, isStrResult]
            rw [hstep, hfil]
            exact ih
        | arr es ps =>
            have hstep : translateApiStep en none net st k = st := by
              simp only [translateApiStep, hg]
            rw [hstep] at ih
            have hfil : (k :: ks).filter (fun k => isStrResult (getValue en k)) =
                ks.filter (fun k => isStrResult (getValue en k)) := by
              rw [List.filter_cons]
              simp [hg, isStrResult]
            rw [hstep, hfil]
            exact ih

/-- C8 (amended).  When the `gemini-flash` backend is selected and
`GEMINI_API_KEY` is absent, every per-key call to `translateWithGemini`
throws its diagnostic before any network activity, but the per-key `catch`
swallows each error: the tool attempts every string-valued missing key,
counts an error for each, translates nothing, leaves the target tree
unchanged — and does not abort early.  The unamended fail-fast claim is
refuted by the counterexample. -/
theorem missing_credential_behavior (en ja : JValue)
    (net : Str → Str → Option Str) :
    (translateMissingKeysApi en ja none net).1.tree = ja ∧
    (translateMissingKeysApi en ja none net).1.translated = 0 ∧
    (translateMissingKeysApi en ja none net).1.attempted =
      (missingKeysApi en ja).filter (fun k => isStrResult (getValue en k)) ∧
    (translateMissingKeysApi en ja none net).1.errors =
      ((missingKeysApi en ja).filter
        (fun k => isStrResult (getValue en k))).length := by
  unfold translateMissingKeysApi
  by_cases hmk : missingKeysApi en ja = []
  · rw [hmk]
    simp
  · rw [if_neg hmk]
    have h := api_fold_noKey en net (missingKeysApi en ja) ⟨ja, 0, 0, []⟩
    simpa using h

/-- C8 counterexample: with default tree `{"a":"x","b":"y"}`, empty target
tree and no `GEMINI_API_KEY`, the tool does not fail fast: it proceeds to
attempt both missing keys (recording two per-key errors and zero
translations), then still writes the (unchanged) target file once and
finishes normally. -/
theorem missing_credential_not_fail_fast :
    (translateMissingKeysApi
        (JValue.obj (.cons (chars "a") (JValue.str (chars "x"))
          (.cons (chars "b") (JValue.str (chars "y")) .nil)))
        (JValue.obj .nil) none (fun _ _ => none)).1.attempted =
      [chars "a", chars "b"] ∧
    ([chars "a", chars "b"] : List Str) ≠ [] ∧
    (translateMissingKeysApi
        (JValue.obj (.cons (chars "a") (JValue.str (chars "x"))
          (.cons (chars "b") (JValue.str (chars "y")) .nil)))
        (JValue.obj .nil) none (fun _ _ => none)).1.errors = 2 ∧
    (translateMissingKeysApi
        (JValue.obj (.cons (chars "a") (JValue.str (chars "x"))
          (.cons (chars "b") (JValue.str (chars "y")) .nil)))
        (JValue.obj .nil) none (fun _ _ => none)).1.translated = 0 ∧
    (translateMissingKeysApi
        (JValue.obj (.cons (chars "a") (JValue.str (chars "x"))
          (.cons (chars "b") (JValue.str (chars "y")) .nil)))
        (JValue.obj .nil) none (fun _ _ => none)).2 = [JValue.obj .nil] :=
  ⟨by decide, by decide, by decide, by decide, by rfl⟩

/- ===================================================================== -/
/- C4: flattening and the spec's missing-key formula.                     -/
/- ===================================================================== -/

theorem foldJoin_cons (pfx k : Str) (path : List Str) :
    foldJoin pfx (k :: path) = foldJoin (joinKey pfx k) path := rfl

theorem getKeysLocalF_eq_spec : ∀ (fs : JFields) (pfx : Str),
    getKeysLocalF fs pfx = (specStringPathsF fs).map (foldJoin pfx)
  | .nil, _ => rfl
  | .cons k v rest, pfx => by
      cases v with
      | str s =>
          show [joinKey pfx k] ++ getKeysLocalF rest pfx =
            ([[k]] ++ specStringPathsF rest).map (foldJoin pfx)
          rw [List.map_append, getKeysLocalF_eq_spec rest pfx]
          rfl
      | obj fs' =>
          show getKeysLocalF fs' (joinKey pfx k) ++ getKeysLocalF rest pfx =
            ((specStringPathsF fs').map (k :: ·) ++
              specStringPathsF rest).map (foldJoin pfx)
          rw [List.map_append, getKeysLocalF_eq_spec fs' (joinKey pfx k),
            getKeysLocalF_eq_spec rest pfx, List.map_map]
          rfl
      | num n => exact getKeysLocalF_eq_spec rest pfx
      | bool b => exact getKeysLocalF_eq_spec rest pfx
      | null => exact getKeysLocalF_eq_spec rest pfx
      | arr es ps => exact getKeysLocalF_eq_spec rest pfx

theorem joinDot_cons_cons (s t : Str) (rest : List Str) :
    joinDot ((s ++ '.' :: t) :: rest) = joinDot (s :: t :: rest) := by
  cases rest with
  | nil => simp [joinDot, joinSep]
  | cons r rs => simp [joinDot, joinSep]

theorem foldl_joinKey_ne : ∀ (segs : List Str) (s : Str), s ≠ [] →
    List.foldl joinKey s segs = joinDot (s :: segs)
  | [], s, _ => by simp [joinDot, joinSep]
  | t :: rest, s, hs => by
      rw [List.foldl_cons, show joinKey s t = s ++ '.' :: t by
        rw [joinKey, if_neg hs]]
      rw [foldl_joinKey_ne rest (s ++ '.' :: t) (by simp)]
      exact joinDot_cons_cons s t rest

theorem split_joinDot : ∀ (path : List Str), path ≠ [] →
    (∀ seg ∈ path, ('.' : Char) ∉ seg) →
    splitOnChar '.' (joinDot path) = path
  | [], h, _ => absurd rfl h
  | [s], _, hdot => by
      rw [show joinDot [s] = s from rfl,
        splitOnChar_of_not_mem (hdot s (List.mem_singleton_self s))]
  | s :: t :: rest, _, hdot => by
      have hs : ('.' : Char) ∉ s := hdot s (List.mem_cons_self _ _)
      have hrest : ∀ seg ∈ t :: rest, ('.' : Char) ∉ seg := by
        intro seg hseg
        exact hdot seg (List.mem_cons_of_mem s hseg)
      have ih := split_joinDot (t :: rest) (List.cons_ne_nil t rest) hrest
      rw [show joinDot (s :: t :: rest) = s ++ '.' :: joinDot (t :: rest) by
        simp [joinDot, joinSep]]
      rw [splitOnChar_append_left hs, splitOnChar_sep, ih]
      simp

theorem wfKeysF_cons {k : Str} {v : JValue} {rest : JFields}
    (h : wfKeysF (.cons k v rest) = true) :
    k ≠ [] ∧ ('.' : Char) ∉ k ∧ rest.hasKey k = false ∧ wfKeysV v = true ∧
      wfKeysF rest = true := by
  have h' : (!k.isEmpty && !k.contains '.' && !JFields.hasKey rest k &&
      wfKeysV v && wfKeysF rest) = true := h
  simp only [Bool.and_eq_true, Bool.not_eq_true'] at h'
  refine ⟨by simpa using h'.1.1.1.1, by simpa using h'.1.1.1.2,
    h'.1.1.2, h'.1.2, h'.2⟩

theorem hasKey_self (k : Str) (v : JValue) (rest : JFields) :
    (JFields.cons k v rest).hasKey k = true := by
  simp [JFields.hasKey]

theorem hasKey_cons_of (k' : Str) (v : JValue) {rest : JFields} {k : Str}
    (h : rest.hasKey k = true) : (JFields.cons k' v rest).hasKey k = true := by
  simp [JFields.hasKey, h]

theorem specStringPathsF_head : ∀ (fs : JFields) (path : List Str),
    path ∈ specStringPathsF fs → ∃ k q, path = k :: q ∧ fs.hasKey k = true
  | .nil, path, h => absurd h (by simp [specStringPathsF])
  | .cons k v rest, path, h => by
      cases v with
      | str s =>
          have h' : path ∈ [[k]] ++ specStringPathsF rest := h
          rcases List.mem_append.mp h' with h1 | h2
          · refine ⟨k, [], by simpa using h1, hasKey_self k _ rest⟩
          · obtain ⟨k', q, rfl, hk'⟩ := specStringPathsF_head rest path h2
            exact ⟨k', q, rfl, hasKey_cons_of k _ hk'⟩
      | obj fs' =>
          have h' : path ∈ (specStringPathsF fs').map (k :: ·) ++
              specStringPathsF rest := h
          rcases List.mem_append.mp h' with h1 | h2
          · obtain ⟨q, _, rfl⟩ := List.mem_map.mp h1
            exact ⟨k, q, rfl, hasKey_self k _ rest⟩
          · obtain ⟨k', q, rfl, hk'⟩ := specStringPathsF_head rest path h2
            exact ⟨k', q, rfl, hasKey_cons_of k _ hk'⟩
      | num n =>
          obtain ⟨k', q, rfl, hk'⟩ := specStringPathsF_head rest path h
          exact ⟨k', q, rfl, hasKey_cons_of k _ hk'⟩
      | bool b =>
          obtain ⟨k', q, rfl, hk'⟩ := specStringPathsF_head rest path h
          exact ⟨k', q, rfl, hasKey_cons_of k _ hk'⟩
      | null =>
          obtain ⟨k', q, rfl, hk'⟩ := specStringPathsF_head rest path h
          exact ⟨k', q, rfl, hasKey_cons_of k _ hk'⟩
      | arr es ps =>
          obtain ⟨k', q, rfl, hk'⟩ := specStringPathsF_head rest path h
          exact ⟨k', q, rfl, hasKey_cons_of k _ hk'⟩

/-- A path whose head key is absent from the head field skips it. -/
theorem getSegs_skip_head {k : Str} {v : JValue} {rest : JFields}
    {path : List Str} (hmem : path ∈ specStringPathsF rest)
    (hk : rest.hasKey k = false) :
    getSegs (some (JValue.obj (.cons k v rest))) path =
      getSegs (some (JValue.obj rest)) path := by
  obtain ⟨k', q, rfl, hk'⟩ := specStringPathsF_head rest path hmem
  have hne : ¬ k = k' := by
    intro hc
    subst hc
    rw [hk'] at hk
    cases hk
  rw [getSegs_cons_some, getSegs_cons_some]
  simp only [jsGet, JFields.get?, if_neg hne]

theorem specStringPathsF_get : ∀ (fs : JFields), wfKeysF fs = true →
    ∀ path ∈ specStringPathsF fs,
      ∃ s, getSegs (some (JValue.obj fs)) path = some (JValue.str s)
  | .nil, _, path, h => absurd h (by simp [specStringPathsF])
  | .cons k v rest, hwf, path, h => by
      obtain ⟨_, _, hnk, hwfv, hwfrest⟩ := wfKeysF_cons hwf
      cases v with
      | str s =>
          have h' : path ∈ [[k]] ++ specStringPathsF rest := h
          rcases List.mem_append.mp h' with h1 | h2
          · obtain rfl : path = [k] := by simpa using h1
            refine ⟨s, ?_⟩
            rw [getSegs_cons_some]
            simp [jsGet, JFields.get?, getSegs]
          · rw [getSegs_skip_head h2 hnk]
            exact specStringPathsF_get rest hwfrest path h2
      | obj fs' =>
          have h' : path ∈ (specStringPathsF fs').map (k :: ·) ++
              specStringPathsF rest := h
          rcases List.mem_append.mp h' with h1 | h2
          · obtain ⟨q, hq, rfl⟩ := List.mem_map.mp h1
            rw [getSegs_cons_some]
            simp only [jsGet, JFields.get?, if_pos rfl]
            exact specStringPathsF_get fs' hwfv q hq
          · rw [getSegs_skip_head h2 hnk]
            exact specStringPathsF_get rest hwfrest path h2
      | num n =>
          have h2 : path ∈ specStringPathsF rest := h
          rw [getSegs_skip_head h2 hnk]
          exact specStringPathsF_get rest hwfrest path h2
      | bool b =>
          have h2 : path ∈ specStringPathsF rest := h
          rw [getSegs_skip_head h2 hnk]
          exact specStringPathsF_get rest hwfrest path h2
      | null =>
          have h2 : path ∈ specStringPathsF rest := h
          rw [getSegs_skip_head h2 hnk]
          exact specStringPathsF_get rest hwfrest path h2
      | arr es ps =>
          have h2 : path ∈ specStringPathsF rest := h
          rw [getSegs_skip_head h2 hnk]
          exact specStringPathsF_get rest hwfrest path h2

theorem specStringPathsF_segs : ∀ (fs : JFields), wfKeysF fs = true →
    ∀ path ∈ specStringPathsF fs, path ≠ [] ∧
      ∀ seg ∈ path, seg ≠ [] ∧ ('.' : Char) ∉ seg
  | .nil, _, path, h => absurd h (by simp [specStringPathsF])
  | .cons k v rest, hwf, path, h => by
      obtain ⟨hk0, hkdot, _, hwfv, hwfrest⟩ := wfKeysF_cons hwf
      cases v with
      | str s =>
          have h' : path ∈ [[k]] ++ specStringPathsF rest := h
          rcases List.mem_append.mp h' with h1 | h2
          · obtain rfl : path = [k] := by simpa using h1
            refine ⟨by simp, ?_⟩
            intro seg hseg
            obtain rfl : seg = k := by simpa using hseg
            exact ⟨hk0, hkdot⟩
          · exact specStringPathsF_segs rest hwfrest path h2
      | obj fs' =>
          have h' : path ∈ (specStringPathsF fs').map (k :: ·) ++
              specStringPathsF rest := h
          rcases List.mem_append.mp h' with h1 | h2
          · obtain ⟨q, hq, rfl⟩ := List.mem_map.mp h1
            refine ⟨by simp, ?_⟩
            intro seg hseg
            rcases List.mem_cons.mp hseg with rfl | hseg'
            · exact ⟨hk0, hkdot⟩
            · exact (specStringPathsF_segs fs' hwfv q hq).2 seg hseg'
          · exact specStringPathsF_segs rest hwfrest path h2
      | num n => exact specStringPathsF_segs rest hwfrest path h
      | bool b => exact specStringPathsF_segs rest hwfrest path h
      | null => exact specStringPathsF_segs rest hwfrest path h
      | arr es ps => exact specStringPathsF_segs rest hwfrest path h

theorem specStringPathsF_pairwise : ∀ (fs : JFields), wfKeysF fs = true →
    (specStringPathsF fs).Pairwise (fun p q => ¬ p <+: q ∧ ¬ q <+: p)
  | .nil, _ => by simp [specStringPathsF]
  | .cons k v rest, hwf => by
      obtain ⟨_, _, hnk, hwfv, hwfrest⟩ := wfKeysF_cons hwf
      have hcross : ∀ (a : List Str), (∃ qa, a = k :: qa) →
          ∀ b ∈ specStringPathsF rest, ¬ a <+: b ∧ ¬ b <+: a := by
        rintro a ⟨qa, rfl⟩ b hb
        obtain ⟨k', qb, rfl, hk'⟩ := specStringPathsF_head rest b hb
        have hne : k ≠ k' := by
          intro hc
          subst hc
          rw [hk'] at hnk
          cases hnk
        constructor
        · intro hc
          exact hne (List.cons_prefix_cons.mp hc).1
        · intro hc
          exact hne ((List.cons_prefix_cons.mp hc).1).symm
      cases v with
      | str s =>
          show ([[k]] ++ specStringPathsF rest).Pairwise _
          refine List.pairwise_append.mpr
            ⟨by simp, specStringPathsF_pairwise rest hwfrest, ?_⟩
          intro a ha b hb
          obtain rfl : a = [k] := by simpa using ha
          exact hcross [k] ⟨[], rfl⟩ b hb
      | obj fs' =>
          show ((specStringPathsF fs').map (k :: ·) ++
            specStringPathsF rest).Pairwise _
          refine List.pairwise_append.mpr
            ⟨?_, specStringPathsF_pairwise rest hwfrest, ?_⟩
          · refine List.pairwise_map.mpr ?_
            refine (specStringPathsF_pairwise fs' hwfv).imp ?_
            intro a b hab
            exact ⟨fun hc => hab.1 (List.cons_prefix_cons.mp hc).2,
              fun hc => hab.2 (List.cons_prefix_cons.mp hc).2⟩
          · intro a ha b hb
            obtain ⟨q, _, rfl⟩ := List.mem_map.mp ha
            exact hcross (k :: q) ⟨q, rfl⟩ b hb
      | num n => exact specStringPathsF_pairwise rest hwfrest
      | bool b => exact specStringPathsF_pairwise rest hwfrest
      | null => exact specStringPathsF_pairwise rest hwfrest
      | arr es ps => exact specStringPathsF_pairwise rest hwfrest

theorem getKeysLocal_eq_spec_join {fs : JFields} (hwf : wfKeysF fs = true) :
    getKeysLocal (JValue.obj fs) [] = (specStringPathsF fs).map joinDot := by
  show getKeysLocalF fs [] = _
  rw [getKeysLocalF_eq_spec fs []]
  apply List.map_congr_left
  intro path hpath
  obtain ⟨hne, hsegs⟩ := specStringPathsF_segs fs hwf path hpath
  cases path with
  | nil => exact absurd rfl hne
  | cons s rest =>
      show List.foldl joinKey (joinKey [] s) rest = joinDot (s :: rest)
      rw [show joinKey [] s = s from by rw [joinKey, if_pos rfl]]
      exact foldl_joinKey_ne rest s (hsegs s (List.mem_cons_self s rest)).1

theorem getKeysApiF_eq_localF : ∀ (fs : JFields) (pfx : Str),
    plainStrTreeF fs = true → getKeysApiF fs pfx = getKeysLocalF fs pfx
  | .nil, _, _ => rfl
  | .cons k v rest, pfx, hp => by
      have hp' : (plainStrTreeV v && plainStrTreeF rest) = true := hp
      obtain ⟨hv, hrest⟩ : plainStrTreeV v = true ∧ plainStrTreeF rest = true := by
        simpa using hp'
      cases v with
      | str s =>
          show [joinKey pfx k] ++ getKeysApiF rest pfx =
            [joinKey pfx k] ++ getKeysLocalF rest pfx
          rw [getKeysApiF_eq_localF rest pfx hrest]
      | obj fs' =>
          show getKeysApiF fs' (joinKey pfx k) ++ getKeysApiF rest pfx =
            getKeysLocalF fs' (joinKey pfx k) ++ getKeysLocalF rest pfx
          rw [getKeysApiF_eq_localF fs' (joinKey pfx k) hv,
            getKeysApiF_eq_localF rest pfx hrest]
      | num n => exact absurd hv (by simp [plainStrTreeV])
      | bool b => exact absurd hv (by simp [plainStrTreeV])
      | null => exact absurd hv (by simp [plainStrTreeV])
      | arr es ps => exact absurd hv (by simp [plainStrTreeV])

theorem goodDefaultTree_obj {en : JValue} (h : goodDefaultTree en = true) :
    ∃ fs, en = JValue.obj fs ∧ wfKeysF fs = true := by
  cases en with
  | obj fs =>
      refine ⟨fs, rfl, ?_⟩
      have h2 : (isObjB (JValue.obj fs) && wfKeysV (JValue.obj fs)) = true := h
      simp only [Bool.and_eq_true] at h2
      exact h2.2
  | str s => exact absurd h (by simp [goodDefaultTree, isObjB])
  | num n => exact absurd h (by simp [goodDefaultTree, isObjB])
  | bool b => exact absurd h (by simp [goodDefaultTree, isObjB])
  | null => exact absurd h (by simp [goodDefaultTree, isObjB])
  | arr es ps => exact absurd h (by simp [goodDefaultTree, isObjB])

/-- C4 (amended).  Missing-key computation versus the spec's formula
(`specMissingKeys`, the ordered dot-joined string-leaf paths of the default
tree filtered to those undefined in the target).  (1) The local tool
(`auto-translate-local.mjs`) computes exactly the spec's set, for every
well-formed default tree (object root; non-empty, dot-free, unique keys)
and every target tree, order preserved.  (2) The API tool
(`auto-translate.mjs`) agrees only on trees of nested plain objects with
string leaves: its `getKeys` also recurses into arrays (producing
element-index keys) and includes non-string leaves such as booleans and
nulls, so on such trees its missing-key set differs from the spec's set
(see the counterexample). -/
theorem missing_keys_match_spec_flatten :
    (∀ en ja : JValue, goodDefaultTree en = true →
      missingKeysLocal en ja = specMissingKeys en ja) ∧
    (∀ en ja : JValue, goodDefaultTree en = true → plainStrTreeV en = true →
      missingKeysApi en ja = specMissingKeys en ja) := by
  have hlocal : ∀ en ja : JValue, goodDefaultTree en = true →
      missingKeysLocal en ja = specMissingKeys en ja := by
    intro en ja hgood
    obtain ⟨fs, rfl, hwf⟩ := goodDefaultTree_obj hgood
    show (getKeysLocal (JValue.obj fs) []).filter _ =
      ((specStringPathsF fs).map joinDot).filter _
    rw [getKeysLocal_eq_spec_join hwf]
  constructor
  · exact hlocal
  · intro en ja hgood hplain
    obtain ⟨fs, rfl, hwf⟩ := goodDefaultTree_obj hgood
    have hplain' : plainStrTreeF fs = true := hplain
    have happi : missingKeysApi (JValue.obj fs) ja =
        missingKeysLocal (JValue.obj fs) ja := by
      show (getKeysApiF fs []).filter _ = (getKeysLocalF fs []).filter _
      rw [getKeysApiF_eq_localF fs [] hplain']
    rw [happi]
    exact hlocal (JValue.obj fs) ja hgood

/-- C4 counterexample.  With default tree `{"a":["x"],"b":true}` and empty
target, the API tool's missing-key set is `["a.0","b"]` — it recurses into
the array and keeps the boolean leaf — while the spec's formula (string
leaves only, arrays excluded) gives the empty set.  Moreover, with default
tree `{"":{"c":"x"}}` the local tool reports `"c"` (the falsy empty prefix
is swallowed by `prefix ? prefix + '.' + key : key`) while the spec's
dot-join gives `".c"`. -/
theorem api_flatten_deviates_from_spec :
    missingKeysApi
        (JValue.obj (.cons (chars "a")
          (JValue.arr (.cons (JValue.str (chars "x")) .nil) .nil)
          (.cons (chars "b") (JValue.bool true) .nil)))
        (JValue.obj .nil) = [chars "a.0", chars "b"] ∧
    specMissingKeys
        (JValue.obj (.cons (chars "a")
          (JValue.arr (.cons (JValue.str (chars "x")) .nil) .nil)
          (.cons (chars "b") (JValue.bool true) .nil)))
        (JValue.obj .nil) = [] ∧
    ([chars "a.0", chars "b"] : List Str) ≠ [] ∧
    missingKeysLocal
        (JValue.obj (.cons []
          (JValue.obj (.cons (chars "c") (JValue.str (chars "x")) .nil))
          .nil))
        (JValue.obj .nil) = [chars "c"] ∧
    specMissingKeys
        (JValue.obj (.cons []
          (JValue.obj (.cons (chars "c") (JValue.str (chars "x")) .nil))
          .nil))
        (JValue.obj .nil) = [chars ".c"] ∧
    ([chars "c"] : List Str) ≠ [chars ".c"] := by
  refine ⟨by decide, by decide, by decide, by decide, by decide, by decide⟩

/-- C4 witness: on the default tree `{"a":{"b":"B","c":"C"}}` with target
`{"a":{"b":"B1"}}`, the local tool's missing-key set matches the spec's
formula, namely `["a.c"]`. -/
theorem missing_keys_match_spec_flatten_witness :
    goodDefaultTree
        (JValue.obj (.cons (chars "a")
          (JValue.obj (.cons (chars "b") (JValue.str (chars "B"))
            (.cons (chars "c") (JValue.str (chars "C")) .nil))) .nil)) =
      true ∧
    missingKeysLocal
        (JValue.obj (.cons (chars "a")
          (JValue.obj (.cons (chars "b") (JValue.str (chars "B"))
            (.cons (chars "c") (JValue.str (chars "C")) .nil))) .nil))
        (JValue.obj (.cons (chars "a")
          (JValue.obj (.cons (chars "b") (JValue.str (chars "B1")) .nil))
          .nil)) =
      specMissingKeys
        (JValue.obj (.cons (chars "a")
          (JValue.obj (.cons (chars "b") (JValue.str (chars "B"))
            (.cons (chars "c") (JValue.str (chars "C")) .nil))) .nil))
        (JValue.obj (.cons (chars "a")
          (JValue.obj (.cons (chars "b") (JValue.str (chars "B1")) .nil))
          .nil)) ∧
    specMissingKeys
        (JValue.obj (.cons (chars "a")
          (JValue.obj (.cons (chars "b") (JValue.str (chars "B"))
            (.cons (chars "c") (JValue.str (chars "C")) .nil))) .nil))
        (JValue.obj (.cons (chars "a")
          (JValue.obj (.cons (chars "b") (JValue.str (chars "B1")) .nil))
          .nil)) = [chars "a.c"] :=
  ⟨by decide,
   (missing_keys_match_spec_flatten).1 _ _ (by decide),
   by decide⟩

/- ===================================================================== -/
/- C5 and C6: the local sync tool's main loop.                            -/
/- ===================================================================== -/

theorem getKeysLocal_getValue_str {en : JValue}
    (hgood : goodDefaultTree en = true) :
    ∀ k ∈ getKeysLocal en [], ∃ s, getValue en k = some (JValue.str s) := by
  obtain ⟨fs, rfl, hwf⟩ := goodDefaultTree_obj hgood
  intro k hk
  rw [getKeysLocal_eq_spec_join hwf] at hk
  obtain ⟨path, hpath, rfl⟩ := List.mem_map.mp hk
  obtain ⟨hne, hsegs⟩ := specStringPathsF_segs fs hwf path hpath
  show ∃ s, getSegs (some (JValue.obj fs)) (splitOnChar '.' (joinDot path)) =
    some (JValue.str s)
  rw [split_joinDot path hne (fun seg hs => (hsegs seg hs).2)]
  exact specStringPathsF_get fs hwf path hpath

theorem getKeysLocal_pairwise {en : JValue}
    (hgood : goodDefaultTree en = true) :
    (getKeysLocal en []).Pairwise (fun a b =>
      ¬ splitOnChar '.' a <+: splitOnChar '.' b ∧
      ¬ splitOnChar '.' b <+: splitOnChar '.' a) := by
  obtain ⟨fs, rfl, hwf⟩ := goodDefaultTree_obj hgood
  rw [getKeysLocal_eq_spec_join hwf, List.pairwise_map]
  refine List.Pairwise.imp_of_mem ?_ (specStringPathsF_pairwise fs hwf)
  intro a b ha hb hab
  obtain ⟨hane, hasegs⟩ := specStringPathsF_segs fs hwf a ha
  obtain ⟨hbne, hbsegs⟩ := specStringPathsF_segs fs hwf b hb
  rw [split_joinDot a hane (fun s hs => (hasegs s hs).2),
    split_joinDot b hbne (fun s hs => (hbsegs s hs).2)]
  exact hab

theorem missing_pairwise {en ja : JValue}
    (hgood : goodDefaultTree en = true) :
    (missingKeysLocal en ja).Pairwise (fun a b =>
      ¬ splitOnChar '.' a <+: splitOnChar '.' b ∧
      ¬ splitOnChar '.' b <+: splitOnChar '.' a) :=
  (getKeysLocal_pairwise hgood).filter _

theorem conflictFree_spec {ja : JValue} {ks : List Str}
    (h : conflictFree ja ks = true) :
    ∀ k ∈ ks, ∀ p, p <+: splitOnChar '.' k → p ≠ splitOnChar '.' k →
      isNoneOrObj (getSegs (some ja) p) = true := by
  intro k hk p hp hpne
  have h1 := List.all_eq_true.mp h k hk
  exact List.all_eq_true.mp h1 p (mem_properPrefixes.mpr ⟨hp, hpne⟩)

theorem missing_getValue_none {en ja : JValue} {k : Str}
    (hk : k ∈ missingKeysLocal en ja) : getValue ja k = none :=
  Option.isNone_iff_eq_none.mp (by simpa using (List.mem_filter.mp hk).2)

/-- Sequential-insertion lemma for the local tool's loop: under string
default values, conflict-free targets and pairwise non-prefix keys, the
fold succeeds, every key of the list ends bound to a string, and every path
diverging from all the keys is untouched. -/
theorem translateLocal_fold (en : JValue) (tr : Str → Option Str) :
    ∀ (ks : List Str) (t0 : JValue) (tc ec : Nat),
      (∀ k ∈ ks, ∃ s, getValue en k = some (JValue.str s)) →
      (∀ k ∈ ks, ∀ p, p <+: splitOnChar '.' k → p ≠ splitOnChar '.' k →
        isNoneOrObj (getSegs (some t0) p) = true) →
      ks.Pairwise (fun a b => ¬ splitOnChar '.' a <+: splitOnChar '.' b ∧
        ¬ splitOnChar '.' b <+: splitOnChar '.' a) →
      ∃ st : SyncState,
        ks.foldlM (translateLocalStep en tr) ⟨t0, tc, ec⟩ = some st ∧
        (∀ k ∈ ks, ∃ s, getValue st.tree k = some (JValue.str s)) ∧
        (∀ p, (∀ k ∈ ks, ¬ p <+: splitOnChar '.' k ∧
          ¬ splitOnChar '.' k <+: p) →
          getSegs (some st.tree) p = getSegs (some t0) p)
  | [], t0, tc, ec, _, _, _ =>
      ⟨⟨t0, tc, ec⟩, rfl, by simp, fun p _ => rfl⟩
  | k :: ks, t0, tc, ec, hstr, hpre, hpw => by
      obtain ⟨s0, hs0⟩ := hstr k (List.mem_cons_self k ks)
      have hpre0 : ∀ p, p <+: splitOnChar '.' k → p ≠ splitOnChar '.' k →
          isNoneOrObj (getSegs (some t0) p) = true :=
        hpre k (List.mem_cons_self k ks)
      have hdiv : ∀ k' ∈ ks, ¬ splitOnChar '.' k <+: splitOnChar '.' k' ∧
          ¬ splitOnChar '.' k' <+: splitOnChar '.' k :=
        (List.pairwise_cons.mp hpw).1
      have rec : ∀ (x : Str) (tc' ec' : Nat),
          ∃ t1 st, setValue t0 k (JValue.str x) = some t1 ∧
            ks.foldlM (translateLocalStep en tr) ⟨t1, tc', ec'⟩ = some st ∧
            (∀ k' ∈ k :: ks, ∃ s, getValue st.tree k' = some (JValue.str s)) ∧
            (∀ p, (∀ k' ∈ k :: ks, ¬ p <+: splitOnChar '.' k' ∧
              ¬ splitOnChar '.' k' <+: p) →
              getSegs (some st.tree) p = getSegs (some t0) p) := by
        intro x tc' ec'
        obtain ⟨t1, ht1eq, ht1get, ht1pre, ht1frame⟩ :=
          setSegs_insert (splitOnChar '.' k) t0 (JValue.str x)
            (splitOnChar_ne_nil '.' k) hpre0
        have hstr' : ∀ k' ∈ ks, ∃ s, getValue en k' = some (JValue.str s) :=
          fun k' hk' => hstr k' (List.mem_cons_of_mem k hk')
        have hpre' : ∀ k' ∈ ks, ∀ p, p <+: splitOnChar '.' k' →
            p ≠ splitOnChar '.' k' →
            isNoneOrObj (getSegs (some t1) p) = true := by
          intro k' hk' p hp hpne
          by_cases hp1 : p <+: splitOnChar '.' k
          · by_cases hp2 : p = splitOnChar '.' k
            · exact absurd (hp2 ▸ hp) (hdiv k' hk').1
            · obtain ⟨fs2, hfs2⟩ := ht1pre p hp1 hp2
              rw [hfs2]
              rfl
          · by_cases hp2 : splitOnChar '.' k <+: p
            · exact absurd (hp2.trans hp) (hdiv k' hk').1
            · rw [ht1frame p hp1 hp2]
              exact hpre k' (List.mem_cons_of_mem k hk') p hp hpne
        obtain ⟨st, hsteq, hstget, hstframe⟩ :=
          translateLocal_fold en tr ks t1 tc' ec' hstr' hpre'
            (List.pairwise_cons.mp hpw).2
        refine ⟨t1, st, ht1eq, hsteq, ?_, ?_⟩
        · intro k' hk'
          rcases List.mem_cons.mp hk' with rfl | hk''
          · refine ⟨x, ?_⟩
            show getSegs (some st.tree) (splitOnChar '.' k') = _
            rw [hstframe (splitOnChar '.' k') hdiv]
            exact ht1get
          · exact hstget k' hk''
        · intro p hdivp
          rw [hstframe p
            (fun k'' hk'' => hdivp k'' (List.mem_cons_of_mem k hk''))]
          have h1 := hdivp k (List.mem_cons_self k ks)
          exact ht1frame p h1.1 h1.2
      rcases htr : tr s0 with _ | jtext
      · obtain ⟨t1, st, hset, hfold, hget, hframe⟩ := rec s0 tc (ec + 1)
        refine ⟨st, ?_, hget, hframe⟩
        rw [List.foldlM_cons]
        simp only [translateLocalStep, hs0, htr, hset, Option.map_some']
        exact hfold
      · obtain ⟨t1, st, hset, hfold, hget, hframe⟩ := rec jtext (tc + 1) ec
        refine ⟨st, ?_, hget, hframe⟩
        rw [List.foldlM_cons]
        simp only [translateLocalStep, hs0, htr, hset, Option.map_some']
        exact hfold

theorem preserved_key_divergence {en ja : JValue}
    (hconf : conflictFree ja (missingKeysLocal en ja) = true)
    {p : List Str} {w : JValue} (hw : getSegs (some ja) p = some w)
    (hobj : isObjB w = false) :
    ∀ k' ∈ missingKeysLocal en ja,
      ¬ p <+: splitOnChar '.' k' ∧ ¬ splitOnChar '.' k' <+: p := by
  intro k' hk'
  have hnone : getSegs (some ja) (splitOnChar '.' k') = none :=
    missing_getValue_none hk'
  have hne : p ≠ splitOnChar '.' k' := by
    intro hpe
    rw [hpe, hnone] at hw
    cases hw
  constructor
  · intro hp
    have h3 := conflictFree_spec hconf k' hk' p hp hne
    rw [hw] at h3
    rcases isNoneOrObj_iff.mp h3 with hc | ⟨fs2, hc⟩
    · cases hc
    · injection hc with hc2
      rw [hc2] at hobj
      simp [isObjB] at hobj
  · intro hp
    obtain ⟨r, hr⟩ := hp
    rw [← hr, getSegs_append, hnone, getSegs_none] at hw
    cases hw

/-- C5 (amended).  Frame property of the local sync tool, for a well-formed
default tree (object root; non-empty, dot-free, unique keys) and a target
tree that does not conflict with the missing keys (every proper prefix of a
missing key resolves in the target to `undefined` or a plain object): the
run completes; with no missing keys nothing is written, otherwise the
target file is written exactly once, after all missing keys are processed;
every key already present in the target with a non-object value is still
bound to its original value; and every missing key ends bound to a string
at its structurally correct nested position.  The unamended claim fails on
conflicting targets: a falsy (empty-string) leaf standing where the default
tree nests an object is overwritten, and with no missing keys the file is
not written at all (see the counterexample). -/
theorem sync_frame_property (en ja : JValue) (tr : Str → Option Str)
    (hgood : goodDefaultTree en = true)
    (hconf : conflictFree ja (missingKeysLocal en ja) = true) :
    ∃ st ws, translateMissingKeysLocal en ja tr = some (st, ws) ∧
      (missingKeysLocal en ja = [] → ws = []) ∧
      (missingKeysLocal en ja ≠ [] → ws = [st.tree]) ∧
      (∀ keyPath w, getValue ja keyPath = some w → isObjB w = false →
        getValue st.tree keyPath = some w) ∧
      (∀ k ∈ missingKeysLocal en ja, ∃ s,
        getValue st.tree k = some (JValue.str s)) := by
  by_cases hmk : missingKeysLocal en ja = []
  · refine ⟨⟨ja, 0, 0⟩, [], ?_, fun _ => rfl, fun h => absurd hmk h, ?_, ?_⟩
    · unfold translateMissingKeysLocal
      rw [if_pos hmk]
    · intro kp w hw _
      exact hw
    · intro k hk
      rw [hmk] at hk
      cases hk
  · have hstr : ∀ k ∈ missingKeysLocal en ja, ∃ s,
        getValue en k = some (JValue.str s) :=
      fun k hk => getKeysLocal_getValue_str hgood k (List.mem_of_mem_filter hk)
    have hpre := conflictFree_spec hconf
    have hpw := @missing_pairwise en ja hgood
    obtain ⟨st, hfold, hget, hframe⟩ :=
      translateLocal_fold en tr (missingKeysLocal en ja) ja 0 0 hstr hpre hpw
    refine ⟨st, [st.tree], ?_, fun h => absurd h hmk, fun _ => rfl, ?_, hget⟩
    · unfold translateMissingKeysLocal
      rw [if_neg hmk, hfold]
    · intro keyPath w hw hobj
      have hw2 : getSegs (some ja) (splitOnChar '.' keyPath) = some w := hw
      have hdiv := preserved_key_divergence hconf hw2 hobj
      show getSegs (some st.tree) (splitOnChar '.' keyPath) = some w
      rw [hframe _ hdiv]
      exact hw

/-- Sequential-insertion lemma for the API tool's loop with a present
credential and an always-successful backend: under string default values,
conflict-free targets and pairwise non-prefix keys, every key of the list
ends bound to a string, and every path diverging from all the keys is
untouched. -/
theorem translateApi_fold (en : JValue) (ak : Str)
    (net : Str → Str → Option Str) (hnet : ∀ s c, (net s c).isSome = true) :
    ∀ (ks : List Str) (t0 : JValue) (tc ec : Nat) (att : List Str),
      (∀ k ∈ ks, ∃ s, getValue en k = some (JValue.str s)) →
      (∀ k ∈ ks, ∀ p, p <+: splitOnChar '.' k → p ≠ splitOnChar '.' k →
        isNoneOrObj (getSegs (some t0) p) = true) →
      ks.Pairwise (fun a b => ¬ splitOnChar '.' a <+: splitOnChar '.' b ∧
        ¬ splitOnChar '.' b <+: splitOnChar '.' a) →
      (∀ k ∈ ks, ∃ s, getValue
          (ks.foldl (translateApiStep en (some ak) net)
            ⟨t0, tc, ec, att⟩).tree k = some (JValue.str s)) ∧
      (∀ p, (∀ k ∈ ks, ¬ p <+: splitOnChar '.' k ∧
          ¬ splitOnChar '.' k <+: p) →
        getSegs (some (ks.foldl (translateApiStep en (some ak) net)
          ⟨t0, tc, ec, att⟩).tree) p = getSegs (some t0) p)
  | [], t0, tc, ec, att, _, _, _ => ⟨by simp, fun p _ => rfl⟩
  | k :: ks, t0, tc, ec, att, hstr, hpre, hpw => by
      obtain ⟨s0, hs0⟩ := hstr k (List.mem_cons_self k ks)
      have hpre0 : ∀ p, p <+: splitOnChar '.' k → p ≠ splitOnChar '.' k →
          isNoneOrObj (getSegs (some t0) p) = true :=
        hpre k (List.mem_cons_self k ks)
      have hdiv : ∀ k' ∈ ks, ¬ splitOnChar '.' k <+: splitOnChar '.' k' ∧
          ¬ splitOnChar '.' k' <+: splitOnChar '.' k :=
        (List.pairwise_cons.mp hpw).1
      rcases hn : net s0 (contextOfKey k) with _ | jtext
      · exact absurd (hnet s0 (contextOfKey k)) (by simp [hn])
      obtain ⟨t1, ht1eq, ht1get, ht1pre, ht1frame⟩ :=
        setSegs_insert (splitOnChar '.' k) t0 (JValue.str jtext)
          (splitOnChar_ne_nil '.' k) hpre0
      have hset : setValue t0 k (JValue.str jtext) = some t1 := ht1eq
      have hstr' : ∀ k' ∈ ks, ∃ s, getValue en k' = some (JValue.str s) :=
        fun k' hk' => hstr k' (List.mem_cons_of_mem k hk')
      have hpre' : ∀ k' ∈ ks, ∀ p, p <+: splitOnChar '.' k' →
          p ≠ splitOnChar '.' k' →
          isNoneOrObj (getSegs (some t1) p) = true := by
        intro k' hk' p hp hpne
        by_cases hp1 : p <+: splitOnChar '.' k
        · by_cases hp2 : p = splitOnChar '.' k
          · exact absurd (hp2 ▸ hp) (hdiv k' hk').1
          · obtain ⟨fs2, hfs2⟩ := ht1pre p hp1 hp2
            rw [hfs2]
            rfl
        · by_cases hp2 : splitOnChar '.' k <+: p
          · exact absurd (hp2.trans hp) (hdiv k' hk').1
          · rw [ht1frame p hp1 hp2]
            exact hpre k' (List.mem_cons_of_mem k hk') p hp hpne
      obtain ⟨ihget, ihframe⟩ :=
        translateApi_fold en ak net hnet ks t1 (tc + 1) ec (att ++ [k])
          hstr' hpre' (List.pairwise_cons.mp hpw).2
      have hstep : translateApiStep en (some ak) net ⟨t0, tc, ec, att⟩ k =
          ⟨t1, tc + 1, ec, att ++ [k]⟩ := by
        simp only [translateApiStep, hs0, hn, hset]
      rw [List.foldl_cons, hstep]
      refine ⟨?_, ?_⟩
      · intro k' hk'
        rcases List.mem_cons.mp hk' with rfl | hk''
        · refine ⟨jtext, ?_⟩
          show getSegs (some (ks.foldl (translateApiStep en (some ak) net)
            ⟨t1, tc + 1, ec, att ++ [k']⟩).tree)
            (splitOnChar '.' k') = _
          rw [ihframe (splitOnChar '.' k') hdiv]
          exact ht1get
        · exact ihget k' hk''
      · intro p hdivp
        rw [ihframe p
          (fun k'' hk'' => hdivp k'' (List.mem_cons_of_mem k hk''))]
        have h1 := hdivp k (List.mem_cons_self k ks)
        exact ht1frame p h1.1 h1.2

/-- C6 (amended).  Sync idempotence.  (1) For `auto-translate-local.mjs`,
under the same well-formedness and no-conflict hypotheses as the frame
property: the first run completes, after it every string-leaf key of the
default tree resolves in the target tree, so the second run finds no
missing keys, translates nothing and writes nothing.  (2) For
`auto-translate.mjs` with a present credential, the same holds when
additionally the default tree is a plain string-leaf tree and the backend
succeeds on every key — its `catch` writes no placeholder, so a failed key
stays missing and would be retranslated.  Without the extra hypotheses the
claim fails for both scripts: an array conflict survives the write/reload
(`JSON.stringify` drops the array property), a dotted key name never
resolves, and an API per-key failure leaves the key missing while the file
is still written (see the counterexample). -/
theorem sync_idempotent :
    (∀ (en ja : JValue) (tr : Str → Option Str),
      goodDefaultTree en = true →
      conflictFree ja (missingKeysLocal en ja) = true →
      ∃ st ws, translateMissingKeysLocal en ja tr = some (st, ws) ∧
        missingKeysLocal en st.tree = [] ∧
        translateMissingKeysLocal en st.tree tr =
          some (⟨st.tree, 0, 0⟩, [])) ∧
    (∀ (en ja : JValue) (ak : Str) (net : Str → Str → Option Str),
      goodDefaultTree en = true → plainStrTreeV en = true →
      conflictFree ja (missingKeysApi en ja) = true →
      (∀ s c, (net s c).isSome = true) →
      missingKeysApi en
        (translateMissingKeysApi en ja (some ak) net).1.tree = [] ∧
      translateMissingKeysApi en
          (translateMissingKeysApi en ja (some ak) net).1.tree (some ak)
          net =
        (⟨(translateMissingKeysApi en ja (some ak) net).1.tree,
          0, 0, []⟩, [])) := by
  constructor
  · intro en ja tr hgood hconf
    by_cases hmk : missingKeysLocal en ja = []
    · refine ⟨⟨ja, 0, 0⟩, [], ?_, hmk, ?_⟩
      · unfold translateMissingKeysLocal
        rw [if_pos hmk]
      · unfold translateMissingKeysLocal
        rw [if_pos hmk]
    · have hstr : ∀ k ∈ missingKeysLocal en ja, ∃ s,
          getValue en k = some (JValue.str s) :=
        fun k hk => getKeysLocal_getValue_str hgood k (List.mem_of_mem_filter hk)
      have hpre := conflictFree_spec hconf
      have hpw := @missing_pairwise en ja hgood
      obtain ⟨st, hfold, hget, hframe⟩ :=
        translateLocal_fold en tr (missingKeysLocal en ja) ja 0 0 hstr hpre hpw
      have hempty : missingKeysLocal en st.tree = [] := by
        refine List.filter_eq_nil_iff.mpr ?_
        intro k hk
        by_cases hkm : k ∈ missingKeysLocal en ja
        · obtain ⟨s, hs⟩ := hget k hkm
          simp [hs]
        · have hkja : ¬ (getValue ja k).isNone = true := by
            intro hc
            exact hkm (List.mem_filter.mpr ⟨hk, by simpa using hc⟩)
          rcases hja : getValue ja k with _ | w
          · rw [hja] at hkja
            simp at hkja
          · have hdiv : ∀ k' ∈ missingKeysLocal en ja,
                ¬ splitOnChar '.' k <+: splitOnChar '.' k' ∧
                ¬ splitOnChar '.' k' <+: splitOnChar '.' k := by
              intro k' hk'
              have hkne : k ≠ k' := fun hc => hkm (hc ▸ hk')
              have hsym : Symmetric (fun a b : Str =>
                  ¬ splitOnChar '.' a <+: splitOnChar '.' b ∧
                  ¬ splitOnChar '.' b <+: splitOnChar '.' a) := by
                intro a b hab
                exact ⟨hab.2, hab.1⟩
              exact List.Pairwise.forall hsym (getKeysLocal_pairwise hgood)
                hk (List.mem_of_mem_filter hk') hkne
            have hfr := hframe (splitOnChar '.' k) hdiv
            have h2 : getValue st.tree k = some w := by
              show getSegs (some st.tree) (splitOnChar '.' k) = some w
              rw [hfr]
              exact hja
            simp [h2]
      refine ⟨st, [st.tree], ?_, hempty, ?_⟩
      · unfold translateMissingKeysLocal
        rw [if_neg hmk, hfold]
      · unfold translateMissingKeysLocal
        rw [if_pos hempty]
  · intro en ja ak net hgood hplain hconf hnet
    obtain ⟨fs, rfl, hwf⟩ := goodDefaultTree_obj hgood
    have hplain2 : plainStrTreeF fs = true := hplain
    have hkeys : getKeysApi (JValue.obj fs) [] =
        getKeysLocal (JValue.obj fs) [] := by
      show getKeysApiF fs [] = getKeysLocalF fs []
      exact getKeysApiF_eq_localF fs [] hplain2
    have hMA : ∀ T, missingKeysApi (JValue.obj fs) T =
        missingKeysLocal (JValue.obj fs) T := by
      intro T
      show (getKeysApi (JValue.obj fs) []).filter _ =
        (getKeysLocal (JValue.obj fs) []).filter _
      rw [hkeys]
    by_cases hmk : missingKeysApi (JValue.obj fs) ja = []
    · have htree : (translateMissingKeysApi (JValue.obj fs) ja (some ak)
          net).1.tree = ja := by
        unfold translateMissingKeysApi
        rw [if_pos hmk]
      constructor
      · rw [htree]
        exact hmk
      · rw [htree]
        unfold translateMissingKeysApi
        rw [if_pos hmk]
    · have hstr : ∀ k ∈ missingKeysApi (JValue.obj fs) ja, ∃ s,
          getValue (JValue.obj fs) k = some (JValue.str s) := by
        intro k hk
        rw [hMA ja] at hk
        exact getKeysLocal_getValue_str hgood k (List.mem_of_mem_filter hk)
      have hpre := conflictFree_spec hconf
      have hpw : (missingKeysApi (JValue.obj fs) ja).Pairwise
          (fun a b => ¬ splitOnChar '.' a <+: splitOnChar '.' b ∧
            ¬ splitOnChar '.' b <+: splitOnChar '.' a) := by
        rw [hMA ja]
        exact missing_pairwise hgood
      obtain ⟨hget, hframe⟩ :=
        translateApi_fold (JValue.obj fs) ak net hnet
          (missingKeysApi (JValue.obj fs) ja) ja 0 0 [] hstr hpre hpw
      have htree : (translateMissingKeysApi (JValue.obj fs) ja (some ak)
          net).1 = (missingKeysApi (JValue.obj fs) ja).foldl
            (translateApiStep (JValue.obj fs) (some ak) net)
            ⟨ja, 0, 0, []⟩ := by
        unfold translateMissingKeysApi
        rw [if_neg hmk]
      have hempty : missingKeysApi (JValue.obj fs)
          ((missingKeysApi (JValue.obj fs) ja).foldl
            (translateApiStep (JValue.obj fs) (some ak) net)
            ⟨ja, 0, 0, []⟩).tree = [] := by
        rw [hMA]
        refine List.filter_eq_nil_iff.mpr ?_
        intro k hk
        by_cases hkm : k ∈ missingKeysApi (JValue.obj fs) ja
        · obtain ⟨s, hs⟩ := hget k hkm
          simp [hs]
        · have hkja : ¬ (getValue ja k).isNone = true := by
            intro hc
            apply hkm
            rw [hMA ja]
            exact List.mem_filter.mpr ⟨hk, by simpa using hc⟩
          rcases hja : getValue ja k with _ | w
          · rw [hja] at hkja
            simp at hkja
          · have hdiv : ∀ k' ∈ missingKeysApi (JValue.obj fs) ja,
                ¬ splitOnChar '.' k <+: splitOnChar '.' k' ∧
                ¬ splitOnChar '.' k' <+: splitOnChar '.' k := by
              intro k' hk'
              rw [hMA ja] at hk'
              have hkne : k ≠ k' := by
                intro hc
                apply hkm
                rw [hMA ja]
                exact hc ▸ hk'
              have hsym : Symmetric (fun a b : Str =>
                  ¬ splitOnChar '.' a <+: splitOnChar '.' b ∧
                  ¬ splitOnChar '.' b <+: splitOnChar '.' a) := by
                intro a b hab
                exact ⟨hab.2, hab.1⟩
              exact List.Pairwise.forall hsym (getKeysLocal_pairwise hgood)
                hk (List.mem_of_mem_filter hk') hkne
            have hfr := hframe (splitOnChar '.' k) hdiv
            have h2 : getValue ((missingKeysApi (JValue.obj fs) ja).foldl
                (translateApiStep (JValue.obj fs) (some ak) net)
                ⟨ja, 0, 0, []⟩).tree k = some w := by
              show getSegs _ (splitOnChar '.' k) = some w
              rw [hfr]
              exact hja
            simp [h2]
      constructor
      · rw [htree]
        exact hempty
      · rw [htree]
        unfold translateMissingKeysApi
        rw [if_pos hempty]

/- Concrete trees for the sync-tool witnesses and counterexamples. -/

def trId : Str → Option Str := fun s => some s

def en5w : JValue :=
  JValue.obj (JFields.cons (chars "a")
    (JValue.obj (JFields.cons (chars "b") (JValue.str (chars "x"))
      (JFields.cons (chars "c") (JValue.str (chars "y")) JFields.nil)))
    JFields.nil)

def ja5w : JValue :=
  JValue.obj (JFields.cons (chars "a")
    (JValue.obj (JFields.cons (chars "b") (JValue.str (chars "B")) JFields.nil))
    JFields.nil)

def en5f : JValue :=
  JValue.obj (JFields.cons (chars "a")
    (JValue.obj (JFields.cons (chars "b") (JValue.str (chars "x")) JFields.nil))
    JFields.nil)

def ja5f : JValue :=
  JValue.obj (JFields.cons (chars "a") (JValue.str []) JFields.nil)

def en6w : JValue :=
  JValue.obj (JFields.cons (chars "g") (JValue.str (chars "hi")) JFields.nil)

def ja6w : JValue := JValue.obj JFields.nil

def en6c : JValue :=
  JValue.obj (JFields.cons (chars "a")
    (JValue.obj (JFields.cons (chars "b") (JValue.str (chars "hello"))
      JFields.nil))
    JFields.nil)

def ja6c : JValue :=
  JValue.obj (JFields.cons (chars "a")
    (JValue.arr (JElems.cons (JValue.str (chars "x")) JElems.nil) JFields.nil)
    JFields.nil)

def en6d : JValue :=
  JValue.obj (JFields.cons (chars "a") (JValue.str (chars "x"))
    (JFields.cons (chars "a.b") (JValue.str (chars "y")) JFields.nil))

/-- Witness for C5: the spec's Scenario 4.  Default tree `{a:{b:"x",c:"y"}}`,
target `{a:{b:"B"}}`: the hypotheses hold, the missing-key list is exactly
`["a.c"]`, and the frame property follows. -/
theorem sync_frame_property_witness :
    goodDefaultTree en5w = true ∧
    conflictFree ja5w (missingKeysLocal en5w ja5w) = true ∧
    missingKeysLocal en5w ja5w = [chars "a.c"] ∧
    (∃ st ws, translateMissingKeysLocal en5w ja5w trId = some (st, ws) ∧
      (missingKeysLocal en5w ja5w = [] → ws = []) ∧
      (missingKeysLocal en5w ja5w ≠ [] → ws = [st.tree]) ∧
      (∀ keyPath w, getValue ja5w keyPath = some w → isObjB w = false →
        getValue st.tree keyPath = some w) ∧
      (∀ k ∈ missingKeysLocal en5w ja5w, ∃ s,
        getValue st.tree k = some (JValue.str s))) :=
  ⟨by decide, by decide, by decide,
    sync_frame_property en5w ja5w trId (by decide) (by decide)⟩

/-- Counterexample to the unamended C5: with default `{a:{b:"x"}}` and
target `{a:""}` the present key `a` (a falsy empty-string leaf) is rebound
to a fresh object, not left at its original value; and with no missing keys
the target file is written zero times, not exactly once. -/
theorem sync_frame_fails_on_falsy_leaf :
    getValue ja5f (chars "a") = some (JValue.str []) ∧
    (translateMissingKeysLocal en5f ja5f trId).bind
        (fun r => getValue r.1.tree (chars "a")) =
      some (JValue.obj (JFields.cons (chars "b") (JValue.str (chars "x"))
        JFields.nil)) ∧
    (some (JValue.obj (JFields.cons (chars "b") (JValue.str (chars "x"))
        JFields.nil)) : Option JValue) ≠ some (JValue.str []) ∧
    (translateMissingKeysLocal (JValue.obj JFields.nil) (JValue.obj JFields.nil)
        trId).map (fun r => r.2.length) = some 0 ∧
    (0 : Nat) ≠ 1 :=
  ⟨rfl, rfl, by simp, rfl, by decide⟩

/-- Witness for C6: default `{g:"hi"}`, empty target.  For the local tool
the hypotheses hold and idempotence follows; for the API tool with
credential `"K"` and an always-successful backend, the second run finds no
missing keys, translates nothing and writes nothing. -/
theorem sync_idempotent_witness :
    goodDefaultTree en6w = true ∧
    plainStrTreeV en6w = true ∧
    conflictFree ja6w (missingKeysLocal en6w ja6w) = true ∧
    conflictFree ja6w (missingKeysApi en6w ja6w) = true ∧
    (∃ st ws, translateMissingKeysLocal en6w ja6w trId = some (st, ws) ∧
      missingKeysLocal en6w st.tree = [] ∧
      translateMissingKeysLocal en6w st.tree trId =
        some (⟨st.tree, 0, 0⟩, [])) ∧
    (missingKeysApi en6w
        (translateMissingKeysApi en6w ja6w (some (chars "K"))
          (fun s _ => some s)).1.tree = [] ∧
      translateMissingKeysApi en6w
          (translateMissingKeysApi en6w ja6w (some (chars "K"))
            (fun s _ => some s)).1.tree (some (chars "K"))
          (fun s _ => some s) =
        (⟨(translateMissingKeysApi en6w ja6w (some (chars "K"))
            (fun s _ => some s)).1.tree, 0, 0, []⟩, [])) :=
  ⟨by decide, by decide, by decide, by decide,
   (sync_idempotent).1 en6w ja6w trId (by decide) (by decide),
   (sync_idempotent).2 en6w ja6w (chars "K") (fun s _ => some s)
     (by decide) (by decide) (by decide) (fun s c => rfl)⟩

/-- C6 counterexample.  (Local tool, array conflict.)  Default
`{a:{b:"hello"}}`, target `{a:["x"]}`: the first run stores `a.b` as an own
property of the array — readable in memory, so the in-memory missing set is
empty — but the write serialises the tree and `JSON.stringify` drops the
property, so the reloaded file is `{a:["x"]}` again: `a.b` is missing once
more and a second run translates it again (1 key, not 0).
(Local tool, dotted key.)  Default `{a:"x", "a.b":"y"}` with empty target:
the joined key `a.b` never resolves (`getValue` re-splits it), the
`typeof enText !== 'string'` guard skips it on every run, so the missing
set never empties and coverage never reaches 100%.
(API tool, per-key failure.)  Default `{g:"hi"}`, empty target, failing
backend: the per-key `catch` writes no placeholder, the file is still
written while `g` is missing, and a second run with a recovered backend
translates 1 key, not 0. -/
theorem sync_not_idempotent_counterexample :
    (translateMissingKeysLocal en6c ja6c trId).map
        (fun r => missingKeysLocal en6c r.1.tree) = some [] ∧
    (translateMissingKeysLocal en6c ja6c trId).map
        (fun r => missingKeysLocal en6c (jsonRoundV r.1.tree)) =
      some [chars "a.b"] ∧
    (translateMissingKeysLocal en6c ja6c trId).bind
        (fun r => (translateMissingKeysLocal en6c (jsonRoundV r.1.tree)
          trId).map (fun r2 => r2.1.translated)) = some 1 ∧
    (1 : Nat) ≠ 0 ∧
    (translateMissingKeysLocal en6d (JValue.obj JFields.nil) trId).bind
        (fun r => (translateMissingKeysLocal en6d r.1.tree trId).map
          (fun r2 => (r2.1.translated, missingKeysLocal en6d r2.1.tree))) =
      some (0, [chars "a.b"]) ∧
    (translateMissingKeysApi en6w ja6w (some (chars "K"))
        (fun _ _ => none)).2 = [JValue.obj JFields.nil] ∧
    missingKeysApi en6w
        (translateMissingKeysApi en6w ja6w (some (chars "K"))
          (fun _ _ => none)).1.tree = [chars "g"] ∧
    (translateMissingKeysApi en6w
        (translateMissingKeysApi en6w ja6w (some (chars "K"))
          (fun _ _ => none)).1.tree (some (chars "K"))
        (fun s _ => some s)).1.translated = 1 :=
  ⟨by decide, by decide, by decide, by decide, rfl, rfl, by decide,
   by decide⟩
